import Mathlib

/-!
# huap: arena, growable buffer and directive preprocessor

A shallow embedding of `src/huap.c`.

* Machine integers of type `size_t` are natural numbers below `SIZE_MOD = 2 ^ 64`;
  every C operation that can wrap is written with an explicit `% SIZE_MOD`.
* `sizeof(void*)` is `PTR_SIZE = 8`.
* A byte is a `Char`; the terminator of a C string is `NUL`.  A `const char *`
  argument is a list of bytes, and the C string functions see it up to its
  first `NUL` (`cstr`).
* A pointer into a block is its offset from the start of the block.
-/

namespace Huap

/-! ## Machine words -/

/-- Number of values of a `size_t`. -/
def SIZE_MOD : Nat := 2 ^ 64

/-- The value of `sizeof(void*)`. -/
def PTR_SIZE : Nat := 8

/-- Addition of two `size_t` values. -/
def size_add (x y : Nat) : Nat := (x + y) % SIZE_MOD

/-- Subtraction of two `size_t` values. -/
def size_sub (x y : Nat) : Nat := (x + SIZE_MOD - y % SIZE_MOD) % SIZE_MOD

/-- The macro `ALIGN_UP(n,a) = (((n)+((a)-1)) & ~((a)-1))` on `size_t`. -/
def ALIGN_UP (n a : Nat) : Nat :=
  (size_add n (a - 1)) &&& (SIZE_MOD - 1 - (a - 1))

/-- The macro `ARENA_ALIGN(n) = ALIGN_UP((n), sizeof(void*))`. -/
def ARENA_ALIGN (n : Nat) : Nat := ALIGN_UP n PTR_SIZE

/-- The terminator byte. -/
def NUL : Char := Char.ofNat 0

/-! ## Arena -/

/-- The struct `Arena`: `base` gives the byte stored at each offset of the block. -/
structure Arena where
  base : Nat → Char
  cap : Nat
  perm_p : Nat
  temp_p : Nat

/-- The function `arena_init`; `blk` is what `malloc(cap)` returned (`none` is `NULL`,
in which case the program exits and no arena is produced). -/
def arena_init (blk : Option (Nat → Char)) (cap : Nat) : Option Arena :=
  match blk with
  | none => none
  | some m => some { base := m, cap := cap, perm_p := 0, temp_p := cap }

/-- The function `arena_alloc_perm`: the returned offset (`none` is `NULL`) and the arena
after the call. -/
def arena_alloc_perm (a : Arena) (n : Nat) : Option Nat × Arena :=
  let n := ARENA_ALIGN n
  if n > size_sub a.temp_p a.perm_p then (none, a)
  else (some a.perm_p, { a with perm_p := size_add a.perm_p n })

/-- The function `arena_alloc_temp`: the returned offset (`none` is `NULL`) and the arena
after the call. -/
def arena_alloc_temp (a : Arena) (n : Nat) : Option Nat × Arena :=
  let n := ARENA_ALIGN n
  if n > size_sub a.temp_p a.perm_p then (none, a)
  else (some (size_sub a.temp_p n), { a with temp_p := size_sub a.temp_p n })

/-- The function `arena_reset_temp`. -/
def arena_reset_temp (a : Arena) : Arena := { a with temp_p := a.cap }

/-- The arena states the program can reach: `arena_init` with a capacity that is a
`size_t`, followed by any calls of the three operations. -/
inductive ArenaReachable : Arena → Prop
  | init (blk : Option (Nat → Char)) (cap : Nat) (a : Arena) :
      cap < SIZE_MOD → arena_init blk cap = some a → ArenaReachable a
  | alloc_perm (a : Arena) (n : Nat) :
      ArenaReachable a → ArenaReachable (arena_alloc_perm a n).2
  | alloc_temp (a : Arena) (n : Nat) :
      ArenaReachable a → ArenaReachable (arena_alloc_temp a n).2
  | reset_temp (a : Arena) :
      ArenaReachable a → ArenaReachable (arena_reset_temp a)

/-- An arena of 64 bytes after a permanent allocation of 10 bytes, a temporary allocation
of 20 bytes, a permanent allocation of 1000 bytes (which fails) and a reset. -/
def arena_demo : Arena :=
  arena_reset_temp (arena_alloc_perm (arena_alloc_temp (arena_alloc_perm
    { base := fun _ => NUL, cap := 64, perm_p := 0, temp_p := 64 } 10).2 20).2 1000).2

/-- A fresh arena of `cap` bytes, all zero. -/
def arena_fresh (cap : Nat) : Arena :=
  { base := fun _ => NUL, cap := cap, perm_p := 0, temp_p := cap }

/-- The well-formedness of an arena state: the fields are `size_t` values and
`perm_p <= temp_p <= cap`. -/
def ArenaInv (a : Arena) : Prop :=
  a.cap < SIZE_MOD ∧ a.perm_p ≤ a.temp_p ∧ a.temp_p ≤ a.cap

instance (a : Arena) : Decidable (ArenaInv a) := by
  unfold ArenaInv
  infer_instance

/-! ## Growable buffer -/

/-- The bytes a C string function sees: everything before the first `NUL`. -/
def cstr (s : List Char) : List Char := s.takeWhile (fun c => c ≠ NUL)

/-- The function `strlen`. -/
def strlen (s : List Char) : Nat := (cstr s).length

/-- The struct `Buf`: `p` is `none` for `NULL`, else the byte stored at each index of the
block of `cap` bytes. -/
structure Buf where
  p : Option (Nat → Char)
  len : Nat
  cap : Nat

/-- The initial value `{0}` of a `Buf`. -/
def Buf.empty : Buf := { p := none, len := 0, cap := 0 }

/-- The bytes `p[0 .. len)` of a buffer. -/
def Buf.contents (b : Buf) : List Char :=
  match b.p with
  | none => []
  | some m => (List.range b.len).map m

/-- The byte `p[i]` of a buffer with a block. -/
def Buf.byte (b : Buf) (i : Nat) : Option Char := b.p.map (fun m => m i)

/-- The loop `while(ncap < need) ncap *= 2;` of `buf_grow`, run for at most `fuel` tests of
the condition; `none` when the loop is still running after that. -/
def grow_loop : Nat → Nat → Nat → Option Nat
  | 0, _, _ => none
  | fuel + 1, ncap, need =>
    if ncap < need then grow_loop fuel ((ncap * 2) % SIZE_MOD) need else some ncap

/-- Tests of the loop condition that `buf_grow` is followed for: after 64 doublings a
64-bit value is zero and stays zero, so a loop still running then never ends. -/
def GROW_FUEL : Nat := 65

/-- The block `realloc(p, ncap)` hands back when it succeeds: the old `oldcap` bytes are
kept, the rest is whatever the fresh block `fresh` holds. -/
def realloc_block (old : Option (Nat → Char)) (oldcap : Nat) (fresh : Nat → Char) :
    Nat → Char :=
  fun i => match old with
    | none => fresh i
    | some m => if i < oldcap then m i else fresh i

/-- The function `buf_grow`; `r` is the outcome of `realloc` (`none` is `NULL`).  The
result is the return value and the buffer after the call, or `none` when the doubling
loop does not end. -/
def buf_grow (b : Buf) (add : Nat) (r : Option (Nat → Char)) : Option (Int × Buf) :=
  let need := size_add (size_add b.len add) 1
  if need ≤ b.cap then some (0, b)
  else
    let ncap := if b.cap ≠ 0 then b.cap else 4096
    match grow_loop GROW_FUEL ncap need with
    | none => none
    | some ncap =>
      match r with
      | none => some (-1, b)
      | some fresh => some (0, { b with p := some (realloc_block b.p b.cap fresh), cap := ncap })

/-- The function `buf_putn` appending the `n = s.length` bytes of `s`.  The result is
`none` when `buf_grow` does not return or when `memcpy` or the store of the terminator
would fall outside the block (undefined behaviour). -/
def buf_putn (b : Buf) (s : List Char) (r : Option (Nat → Char)) : Option (Int × Buf) :=
  match buf_grow b s.length r with
  | none => none
  | some (rc, b1) =>
    if rc ≠ 0 then some (-1, b1)
    else
      match b1.p with
      | none => none
      | some m =>
        if b1.len + s.length + 1 > b1.cap then none
        else
          let m1 : Nat → Char := fun i =>
            if b1.len ≤ i ∧ i < b1.len + s.length then s.getD (i - b1.len) NUL else m i
          let len1 := size_add b1.len s.length
          let m2 : Nat → Char := fun i => if i = len1 then NUL else m1 i
          some (0, { p := some m2, len := len1, cap := b1.cap })

/-- The function `buf_puts`: `buf_putn(b, s, strlen(s))`. -/
def buf_puts (b : Buf) (s : List Char) (r : Option (Nat → Char)) : Option (Int × Buf) :=
  buf_putn b (cstr s) r

/-- The invariant of a buffer built from `{0}` by appends: either it is still `{0}`, or it
has a block, `len < cap` and the byte at index `len` is `NUL`. -/
def BufOK (b : Buf) : Prop :=
  b.cap < SIZE_MOD ∧
  ((b.p.isNone = true ∧ b.len = 0 ∧ b.cap = 0) ∨
   (b.p.isSome = true ∧ b.len < b.cap ∧ b.byte b.len = some NUL))

instance (b : Buf) : Decidable (BufOK b) := by
  unfold BufOK
  infer_instance

/-! ## Text constants and C string functions -/

/-- The macro `SIDENOTE_S`. -/
def SIDENOTE_S : List Char := "[sidenote]".toList
/-- The macro `SIDENOTE_E`. -/
def SIDENOTE_E : List Char := "[/sidenote]".toList
/-- The macro `SIDENOTE_R_S`. -/
def SIDENOTE_R_S : List Char := "<div class=\"sidenote\">".toList
/-- The macro `SIDENOTE_R_E`. -/
def SIDENOTE_R_E : List Char := "</div>".toList
/-- The macro `CODE_CMD`. -/
def CODE_CMD : List Char := "$code ".toList
/-- The macro `SNIPPET_S`. -/
def SNIPPET_S : List Char := "//snippet ".toList
/-- The macro `SNIPPET_E`. -/
def SNIPPET_E : List Char := "//endsnippet".toList

/-- The function `memchr(s, c, n)` on the `n` bytes `s`: the index of the first `c`. -/
def memchr : List Char → Char → Option Nat
  | [], _ => none
  | x :: xs, c => if x = c then some 0 else (memchr xs c).map (fun k => k + 1)

/-- The function `strchr(s, c)` for `c` other than `NUL`, on the bytes of a C string. -/
def strchr (s : List Char) (c : Char) : Option Nat := memchr s c

/-- The function `strstr(hay, needle)` on the bytes of two C strings: the index of the
first place of `hay` at which `needle` starts. -/
def strstr : List Char → List Char → Option Nat
  | [], needle => if needle.isEmpty then some 0 else none
  | x :: xs, needle =>
    if needle.isPrefixOf (x :: xs) then some 0
    else (strstr xs needle).map (fun k => k + 1)

/-- The test `c == ' ' || c == '\t'`. -/
def isSpTab (c : Char) : Bool := c == ' ' || c == '\t'

/-- The test `c == ' ' || c == '\t' || c == '\r'`. -/
def isSpTabCr (c : Char) : Bool := c == ' ' || c == '\t' || c == '\r'

/-- The function `line_trim` on the `n` bytes `s`: leading spaces and tabs are dropped,
then trailing spaces, tabs and carriage returns. -/
def line_trim (s : List Char) : List Char :=
  ((s.dropWhile isSpTab).reverse.dropWhile isSpTabCr).reverse

/-! ## Files -/

/-- What happens when a path is read: `open` fails; or `fstat` reports `size` bytes and a
`read` fails or ends early; or all the bytes `data` are read. -/
inductive FileRead where
  | open_fails : FileRead
  | read_fails (size : Nat) : FileRead
  | ok (data : List Char) : FileRead

/-- The file system as `read_file` sees it: the outcome for each path. -/
abbrev FileSys : Type := List Char → FileRead

/-- The function `read_file`: the bytes read (`none` is `NULL`) and the arena after the
call.  On success the block holds the bytes followed by `NUL`. -/
def read_file (fs : FileSys) (a : Arena) (path : List Char) (temp : Bool) :
    Option (List Char) × Arena :=
  match fs path with
  | FileRead.open_fails => (none, a)
  | FileRead.read_fails size =>
    let r := if temp then arena_alloc_temp a (size_add size 1)
      else arena_alloc_perm a (size_add size 1)
    (none, r.2)
  | FileRead.ok data =>
    let n := data.length
    let r := if temp then arena_alloc_temp a (size_add n 1) else arena_alloc_perm a (size_add n 1)
    match r.1 with
    | none => (none, r.2)
    | some off =>
      (some data, { r.2 with base := fun i =>
        if off ≤ i ∧ i < off + n then data.getD (i - off) NUL
        else if i = off + n then NUL else r.2.base i })

/-! ## Snippets

The output `Buf` of the functions below is represented by its contents: by
`buf_putn_spec` a successful `buf_putn` or `buf_puts` extends the
contents by the bytes given, and the functions never test the return value.  Growth of
the output buffer is taken to succeed. -/

/-- The loop `while(ls > start && ls[-1] != '\n') ls--;` of `extract_snippet`, started
at `ls`. -/
def line_start_of (f : List Char) (start : Nat) : Nat → Nat
  | 0 => 0
  | ls + 1 => if ls + 1 > start ∧ f.getD ls NUL ≠ '\n' then line_start_of f start ls else ls + 1

/-- The loop `for(;;)` of `extract_snippet` on the file bytes `f`, with `p` at offset `p`,
followed for at most `fuel` rounds: `none` when it is still running after that,
`some none` for `NULL`, `some (some body)` for the snippet returned. -/
def snippet_loop (f pat : List Char) : Nat → Nat → Option (Option (List Char))
  | 0, _ => none
  | fuel + 1, p =>
    match strstr (f.drop p) SNIPPET_S with
    | none => some none
    | some k =>
      let s := p + k
      if (s = 0 ∨ f.getD (s - 1) NUL = '\n') ∧ pat.isPrefixOf (f.drop s) = true then
        match strchr (f.drop s) '\n' with
        | none => some none
        | some j =>
          let start := s + j + 1
          match strstr (f.drop start) SNIPPET_E with
          | none => some none
          | some e =>
            let end_ := start + e
            let ls := line_start_of f start end_
            if ls ≠ end_ then snippet_loop f pat fuel (end_ + 1)
            else some (some ((f.drop start).take e))
      else snippet_loop f pat fuel (s + 1)

/-- The function `extract_snippet`: `pat` is what `snprintf` leaves in `char pat[512]`. -/
def extract_snippet (file name : List Char) : Option (Option (List Char)) :=
  if cstr name = [] then some none
  else
    let pat := (SNIPPET_S ++ cstr name).take 511
    snippet_loop (cstr file) pat ((cstr file).length + 1) 0

/-- The loop of `append_file_stripping_markers` with `p` at the bytes `p`, followed for
at most `fuel` rounds. -/
def strip_loop : Nat → List Char → List Char → Option (List Char)
  | 0, _, _ => none
  | fuel + 1, p, out =>
    match p with
    | [] => some out
    | _ :: _ =>
      let nl := strchr p '\n'
      let n := match nl with
        | none => p.length
        | some k => k
      let line := p.take n
      let out1 :=
        if ¬ (n ≥ SNIPPET_S.length ∧ line.take SNIPPET_S.length = SNIPPET_S) ∧
           ¬ (n ≥ SNIPPET_E.length ∧ line.take SNIPPET_E.length = SNIPPET_E) then
          match nl with
          | none => out ++ line
          | some _ => out ++ line ++ ['\n']
        else
          match nl with
          | none => out
          | some _ => out ++ ['\n']
      match nl with
      | none => some out1
      | some k => strip_loop fuel (p.drop (k + 1)) out1

/-- The function `append_file_stripping_markers`: the contents of `out` after the call. -/
def append_file_stripping_markers (out file : List Char) : Option (List Char) :=
  strip_loop ((cstr file).length + 1) (cstr file) out

/-! ## The code directive -/

/-- The token scan at the start of `handle_code_line` on the trimmed line `s`: the
contents of `path` and of `snip`, or `none` when the path token is empty (the function
then returns without output). -/
def code_line_tokens (s : List Char) : Option (List Char × List Char) :=
  let p0 := s.drop (CODE_CMD.length)
  let p1 := p0.dropWhile isSpTab
  let path_tok := p1.takeWhile (fun c => !isSpTab c)
  let p2 := p1.dropWhile (fun c => !isSpTab c)
  if path_tok.length = 0 then none
  else
    let path := cstr (path_tok.take 2047)
    let p3 := p2.dropWhile isSpTab
    let snip :=
      match p3 with
      | [] => []
      | c :: _ =>
        let sn :=
          if p3.length ≥ 2 ∧ c = '[' then
            match memchr p3 ']' with
            | some k => (p3.drop 1).take (k - 1)
            | none => p3
          else p3.takeWhile (fun c => !isSpTab c)
        cstr (sn.take 255)
    some (path, snip)

/-- The function `handle_code_line` on the trimmed line `s`: the arena and the contents
of `out` after the call. -/
def handle_code_line (fs : FileSys) (a : Arena) (s : List Char) (out : List Char) :
    Option (Arena × List Char) :=
  match code_line_tokens s with
  | none => some (a, out)
  | some (path, snip) =>
    match read_file fs a path true with
    | (none, a1) => some (a1, out ++ "`[Code file not found: ".toList ++ path ++ "]`".toList)
    | (some file, a1) =>
      let out1 := out ++ "\n```\n".toList
      let out2 :=
        if snip ≠ [] then
          match extract_snippet file snip with
          | none => none
          | some (some snippet) => some (out1 ++ snippet)
          | some none => some (out1 ++ "SNIPPET NOT FOUND\n".toList)
        else append_file_stripping_markers out1 file
      match out2 with
      | none => none
      | some out3 => some (arena_reset_temp a1, out3 ++ "\n```\n".toList)

/-! ## The preprocessor -/

/-- The body of the loop of `preprocess` for one line: `line` are its `ln` bytes and `nl`
tells whether a newline follows it. -/
def preprocess_line (fs : FileSys) (a : Arena) (line : List Char) (nl : Bool)
    (out : List Char) : Option (Arena × List Char) :=
  let ts := line_trim line
  if ts = SIDENOTE_S then some (a, out ++ SIDENOTE_R_S ++ ['\n'])
  else if ts = SIDENOTE_E then some (a, out ++ SIDENOTE_R_E ++ ['\n'])
  else if CODE_CMD.isPrefixOf ts = true then
    match handle_code_line fs a ts out with
    | none => none
    | some (a1, out1) => some (a1, out1 ++ ['\n'])
  else some (a, out ++ line ++ (if nl then ['\n'] else []))

/-- The loop of `preprocess` with `p` at the bytes `p`, followed for at most `fuel`
rounds. -/
def preprocess_loop (fs : FileSys) : Nat → Arena → List Char → List Char →
    Option (Arena × List Char)
  | 0, _, _, _ => none
  | fuel + 1, a, p, out =>
    match p with
    | [] => some (a, out)
    | _ :: _ =>
      match strchr p '\n' with
      | none => preprocess_line fs a p false out
      | some k =>
        match preprocess_line fs a (p.take k) true out with
        | none => none
        | some (a1, out1) => preprocess_loop fs fuel a1 (p.drop (k + 1)) out1

/-- The function `preprocess`: the string returned, `none` when a loop is still running
after as many rounds as there are bytes. -/
def preprocess (fs : FileSys) (a : Arena) (src : List Char) : Option (List Char) :=
  (preprocess_loop fs ((cstr src).length + 1) a (cstr src) []).map Prod.snd

/-! ## Output wrapper -/

/-- The macro `BODY_PH`. -/
def BODY_PH : List Char := "\x7b\x7bBody\x7d\x7d".toList

/-- What one call of `write` does: it is interrupted (`EINTR`), it fails otherwise, or it
writes the first `k` of the bytes offered. -/
inductive WriteRes where
  | eintr : WriteRes
  | error : WriteRes
  | wrote (k : Nat) : WriteRes

/-- The function `write_all` on a file with the bytes `file` so far; `ws` are the outcomes
of the calls of `write` to come.  The result is the return value, the bytes of the file
and the outcomes left, or `none` when the loop is still running when `ws` is used up. -/
def write_all : List WriteRes → List Char → List Char →
    Option (Int × List Char × List WriteRes)
  | ws, file, [] => some (0, file, ws)
  | [], _, _ :: _ => none
  | WriteRes.eintr :: ws, file, b :: buf => write_all ws file (b :: buf)
  | WriteRes.error :: ws, file, _ :: _ => some (-1, file, ws)
  | WriteRes.wrote k :: ws, file, b :: buf =>
    write_all ws (file ++ (b :: buf).take k) ((b :: buf).drop k)

/-- A run of statements `if(write_all(fd, buf, n) != 0) goto fail;` for the buffers given,
followed by `return 0`: the return value and the bytes of the file. -/
def write_seq : List WriteRes → List Char → List (List Char) → Option (Int × List Char)
  | _, file, [] => some (0, file)
  | ws, file, buf :: rest =>
    match write_all ws file buf with
    | none => none
    | some (rc, file1, ws1) => if rc ≠ 0 then some (-1, file1) else write_seq ws1 file1 rest

/-- The function `write_output_wrapped`: the return value and the bytes in the file `dst`
after the call (`open` truncates it); `open_ok` tells whether `open` succeeds and `layout`
is `none` for `NULL`. -/
def write_output_wrapped (open_ok : Bool) (ws : List WriteRes) (html : List Char)
    (layout : Option (List Char)) : Option (Int × List Char) :=
  if open_ok = false then some (-1, [])
  else
    match layout with
    | some lay =>
      match strstr (cstr lay) BODY_PH with
      | some ip =>
        write_seq ws []
          [(cstr lay).take ip, cstr html, (cstr lay).drop (ip + BODY_PH.length)]
      | none => write_seq ws [] [cstr lay, cstr html]
    | none => write_seq ws [] [cstr html]

/-! ## Link post-processing -/

/-- The loop of `postprocess_links_strip_md` on the bytes `h` of the string with `p` at
offset `p`, followed for at most `fuel` rounds: `memmove` shifts what follows the three
bytes `.md` onto them. -/
def strip_md_loop : Nat → List Char → Nat → Option (List Char)
  | 0, _, _ => none
  | fuel + 1, h, p =>
    match strstr (h.drop p) ".md\"".toList with
    | none => some h
    | some k => strip_md_loop fuel (h.take (p + k) ++ h.drop (p + k + 3)) (p + k)

/-- The function `postprocess_links_strip_md`: the string left in `html`. -/
def postprocess_links_strip_md (html : List Char) : Option (List Char) :=
  strip_md_loop ((cstr html).length + 1) (cstr html) 0

/-- A text with each `.md"` met from left to right replaced by `"`. -/
def stripMdQuote : List Char → List Char
  | '.' :: 'm' :: 'd' :: '"' :: rest => '"' :: stripMdQuote rest
  | c :: cs => c :: stripMdQuote cs
  | [] => []

/-! ## Path helpers, staleness and the tree walker

Allocation (`malloc`, `strdup`, `calloc`) is taken to succeed. -/

/-- The function `has_ext`. -/
def has_ext (name ext : List Char) : Bool :=
  decide (strlen name ≥ strlen ext) &&
    decide ((cstr name).drop (strlen name - strlen ext) = cstr ext)

/-- The function `xjoin2`: the string `a/b`. -/
def xjoin2 (a b : List Char) : List Char := cstr a ++ '/' :: cstr b

/-- The function `md_to_html_ext`. -/
def md_to_html_ext (p : List Char) : List Char :=
  let n := strlen p
  if n ≥ 3 ∧ (cstr p).drop (n - 3) = ".md".toList then
    (cstr p).take (n - 3) ++ ".html".toList
  else cstr p

/-- What `stat` reports of a file, as far as the program looks at it. -/
structure Stat where
  is_reg : Bool
  mode : Nat
  atime : Int
  mtime : Int
  deriving DecidableEq

/-- The file metadata: what `stat` returns for each path (`none` when it fails). -/
abbrev StatFn : Type := List Char → Option Stat

/-- The function `needs_rebuild_from_mtime`. -/
def needs_rebuild_from_mtime (stat : StatFn) (src dst : List Char) : Bool :=
  match stat src with
  | none => true
  | some src_st =>
    match stat dst with
    | none => true
    | some dst_st =>
      if dst_st.is_reg = false then true
      else decide (dst_st.mtime < src_st.mtime)

/-- The function `copy_times`: `utime` sets the access and modification time of `dst`;
it fails when `dst` does not exist or `utime_ok` is false. -/
def copy_times (stat : StatFn) (utime_ok : Bool) (dst : List Char) (st : Stat) :
    Int × StatFn :=
  match stat dst with
  | none => (-1, stat)
  | some d =>
    if utime_ok = false then (-1, stat)
    else (0, fun p => if p = dst then some { d with atime := st.atime, mtime := st.mtime }
                      else stat p)

/-- The function `preserve_mode_mtime`: `chmod` sets the permission bits of `dst`; it
fails when `dst` does not exist or `chmod_ok` is false. -/
def preserve_mode_mtime (stat : StatFn) (chmod_ok utime_ok : Bool) (dst : List Char)
    (st : Stat) : Int × StatFn :=
  match stat dst with
  | none => (-1, stat)
  | some d =>
    if chmod_ok = false then (-1, stat)
    else
      let stat1 : StatFn := fun p =>
        if p = dst then some { d with mode := st.mode % 512 } else stat p
      let r := copy_times stat1 utime_ok dst st
      if r.1 = -1 then (-1, r.2) else (0, r.2)

/-- The enum `JobType`. -/
inductive JobType where
  | JOB_COPY : JobType
  | JOB_MD : JobType
  deriving DecidableEq

/-- The struct `Job` without its link: type, source path and destination path. -/
structure Job where
  t : JobType
  src : List Char
  dst : List Char
  deriving DecidableEq

/-- The kinds of entry `fts_read` reports that the walker tells apart. -/
inductive FtsInfo where
  | FTS_D : FtsInfo
  | FTS_F : FtsInfo
  | FTS_OTHER : FtsInfo
  deriving DecidableEq

/-- The fields of an `FTSENT` the walker reads. -/
structure FtsEnt where
  fts_level : Nat
  fts_name : List Char
  fts_path : List Char
  fts_info : FtsInfo

/-- The relative path the walker computes: `rel = src + base; if(*rel == '/') rel++;`. -/
def walker_rel (srcroot src : List Char) : List Char :=
  match (cstr src).drop (strlen srcroot) with
  | '/' :: r => r
  | rel => rel

/-- One round of the loop of `build_tree_parallel` for the entry `ent`: the job pushed to
the queue, if any (directories are created on the way, which is not modelled). -/
def walk_entry (stat : StatFn) (srcroot dstroot : List Char) (ent : FtsEnt) : Option Job :=
  if ent.fts_level = 0 then none
  else if (cstr ent.fts_name).head? = some '.' then none
  else
    let src := cstr ent.fts_path
    let rel := walker_rel srcroot ent.fts_path
    let dst := xjoin2 dstroot rel
    match ent.fts_info with
    | FtsInfo.FTS_D => none
    | FtsInfo.FTS_OTHER => none
    | FtsInfo.FTS_F =>
      if has_ext ent.fts_name ".md".toList = true then
        let dst2 := md_to_html_ext dst
        if needs_rebuild_from_mtime stat src dst2 = false then none
        else some { t := JobType.JOB_MD, src := src, dst := dst2 }
      else
        if needs_rebuild_from_mtime stat src dst = false then none
        else some { t := JobType.JOB_COPY, src := src, dst := dst }

/-- The entry `fts_read` reports for the regular file `name` in the directory `dir` below
`srcroot` (`dir` is empty or ends in a slash). -/
def fileEntry (srcroot dir name : List Char) : FtsEnt :=
  { fts_level := 1 + dir.count '/', fts_name := name,
    fts_path := cstr srcroot ++ '/' :: (dir ++ name), fts_info := FtsInfo.FTS_F }

/-- A relative path `dir ++ name` whose last component passes the dot test of the walker:
`name` is a non-empty file name that does not start with a dot, `dir` is empty or ends in a
slash, and there is no `NUL`.  The components of `dir` are not constrained here: whether
the walk arrives at the file at all is `walk_reaches`. -/
def EligibleFile (dir name : List Char) : Prop :=
  name ≠ [] ∧ name.head? ≠ some '.' ∧ '/' ∉ name ∧ NUL ∉ name ∧ NUL ∉ dir ∧
  (dir = [] ∨ dir.getLast? = some '/')

instance (dir name : List Char) : Decidable (EligibleFile dir name) := by
  unfold EligibleFile
  infer_instance

/-- A file name as a directory holds it: not empty, without slash and without `NUL`. -/
def PathName (d : List Char) : Prop :=
  d ≠ [] ∧ '/' ∉ d ∧ NUL ∉ d

instance (d : List Char) : Decidable (PathName d) := by
  unfold PathName
  infer_instance

/-- The relative path of the directory reached from the source root through the
directories `dirs`, outermost first: every name is followed by a slash. -/
def dirPath : List (List Char) → List Char
  | [] => []
  | d :: ds => d ++ '/' :: dirPath ds

/-- The entry `fts_read` reports in pre-order for the directory `d` in the directory `dir`
below `srcroot` (`dir` is empty or ends in a slash). -/
def dirEntry (srcroot dir d : List Char) : FtsEnt :=
  { fts_level := 1 + dir.count '/', fts_name := d,
    fts_path := cstr srcroot ++ '/' :: (dir ++ d), fts_info := FtsInfo.FTS_D }

/-- Whether one round of the loop of `build_tree_parallel` calls
`fts_set(fts, ent, FTS_SKIP)` for the entry `ent`: the entry is not the root, its name
starts with a dot, and it is a directory in pre-order. -/
def walk_skips (ent : FtsEnt) : Bool :=
  if ent.fts_level = 0 then false
  else if (cstr ent.fts_name).head? = some '.' then decide (ent.fts_info = FtsInfo.FTS_D)
  else false

/-- Whether `fts_read` arrives at what lies in the directory reached from `dir` through
the directories `dirs`: `fts_read` reports a directory before its contents, and reports
nothing inside a directory for which the loop has called `fts_set(fts, ent, FTS_SKIP)`. -/
def walk_reaches (srcroot : List Char) : List Char → List (List Char) → Bool
  | _, [] => true
  | dir, d :: ds =>
    if walk_skips (dirEntry srcroot dir d) = true then false
    else walk_reaches srcroot (dir ++ d ++ ['/']) ds

/-- The job `build_tree_parallel` pushes for the regular file `name` that lies below
`srcroot` in the directories `dirs` (outermost first), if any: the loop sees the entry of
the file only when no directory on the way was skipped. -/
def walk_file (stat : StatFn) (srcroot dstroot : List Char) (dirs : List (List Char))
    (name : List Char) : Option Job :=
  if walk_reaches srcroot [] dirs = true then
    walk_entry stat srcroot dstroot (fileEntry srcroot (dirPath dirs) name)
  else none

/-- File metadata with nothing under the destination root: every `stat` of a path that
does not start with "./" fails, and every source is a regular file of time 100. -/
def freshDest : StatFn := fun p =>
  if "./".toList <+: p then some { is_reg := true, mode := 420, atime := 100, mtime := 100 }
  else none

/-- File metadata with the source `./a.md` of time 100 and the regular destination
`out/a.html` of time 50. -/
def staleDest : StatFn := fun p =>
  if p = "./a.md".toList then some { is_reg := true, mode := 420, atime := 100, mtime := 100 }
  else if p = "out/a.html".toList then
    some { is_reg := true, mode := 384, atime := 60, mtime := 50 }
  else none

/-! ## Job queue

A `Job *` is the address of the job, a natural number; `none` is `NULL`.  The calls are
taken one at a time, as the mutex of the queue orders them. -/

/-- The struct `JobQ` together with the field `next` of the jobs: `next j` is `j->next`. -/
structure JobQ where
  head : Option Nat
  tail : Option Nat
  closed : Bool
  next : Nat → Option Nat

/-- The function `jq_init`; `heap` gives the `next` fields of the jobs as they are. -/
def jq_init (heap : Nat → Option Nat) : JobQ :=
  { head := none, tail := none, closed := false, next := heap }

/-- The function `jq_close`. -/
def jq_close (q : JobQ) : JobQ := { q with closed := true }

/-- The function `jq_push`. -/
def jq_push (q : JobQ) (j : Nat) : JobQ :=
  let next1 : Nat → Option Nat := fun x => if x = j then none else q.next x
  match q.tail with
  | some t =>
    { q with next := fun x => if x = t then some j else next1 x, tail := some j }
  | none => { q with next := next1, head := some j, tail := some j }

/-- The function `jq_pop`: the job returned and the queue after the call, or `none` while
the queue is empty and not closed (the call waits on the condition variable). -/
def jq_pop (q : JobQ) : Option (Option Nat × JobQ) :=
  if q.head = none ∧ q.closed = false then none
  else
    match q.head with
    | none => some (none, q)
    | some j =>
      let h := q.next j
      some (some j, { q with head := h, tail := if h = none then none else q.tail })

/-- The loop of `worker_main` as far as the queue goes: the jobs popped until `jq_pop`
returns `NULL`, for at most `fuel` pops; `none` when a pop waits or the fuel is used up. -/
def jq_drain : Nat → JobQ → Option (List Nat)
  | 0, _ => none
  | fuel + 1, q =>
    match jq_pop q with
    | none => none
    | some (none, _) => some []
    | some (some j, q1) => (jq_drain fuel q1).map (fun js => j :: js)

/-- The jobs linked from `p` by `next`, up to the `NULL` link, are the list given. -/
def Chain (next : Nat → Option Nat) : Option Nat → List Nat → Prop
  | p, [] => p = none
  | p, a :: l => p = some a ∧ Chain next (next a) l

/-- The queue holds the jobs `l`, from head to tail. -/
def QueueHolds (q : JobQ) (l : List Nat) : Prop :=
  Chain q.next q.head l ∧ q.tail = l.getLast? ∧ l.Nodup

/-! ## Serve mode -/

/-- The expression `(path[0] == '/') ? path + 1 : path`: a path without one leading
slash. -/
def dropLeadingSlash : List Char → List Char
  | '/' :: r => r
  | p => p

/-- The function `req_to_md_path`; `uri` are the `uri.len` bytes of the request path
(`none` is `NULL`). -/
def req_to_md_path (root uri : List Char) : Option (List Char) :=
  let path := cstr uri
  if path = [] then none
  else
    let path := if path = "/".toList then "/index".toList else path
    if (strstr path "..".toList).isSome = true then none
    else
      let rel := dropLeadingSlash path
      some (cstr root ++ '/' :: (rel ++ ".md".toList))

/-- The function `strrchr(s, c)` for `c` other than `NUL`, on the bytes of a C string: the
index of the last `c`. -/
def strrchr : List Char → Char → Option Nat
  | [], _ => none
  | x :: xs, c =>
    match strrchr xs c with
    | some k => some (k + 1)
    | none => if x = c then some 0 else none

/-- The function `path_has_extension`. -/
def path_has_extension (path : List Char) : Bool :=
  let p := cstr path
  let base :=
    match strrchr p '/' with
    | some k => p.drop (k + 1)
    | none => p
  (strchr base '.').isSome

/-- What the handler does with a request: nothing (the event is no HTTP message), hand it
to `mg_http_serve_dir`, reply with a status and a fixed text, or go on to read and render
the document `mdp`. -/
inductive Route where
  | ignored : Route
  | static_file : Route
  | reply (status : Nat) : Route
  | render (mdp : List Char) : Route
  deriving DecidableEq

/-- The routing at the start of `serve_markdown`: 400 when `req_to_md_path` returns `NULL`,
404 when `stat` fails or the path is no regular file, else the document is rendered. -/
def serve_markdown_route (stat : StatFn) (root uri : List Char) : Route :=
  match req_to_md_path root uri with
  | none => Route.reply 400
  | some mdp =>
    match stat mdp with
    | none => Route.reply 404
    | some st => if st.is_reg = false then Route.reply 404 else Route.render mdp

/-- The function `http_fn` as routing; `is_http_msg` tells whether `ev` is
`MG_EV_HTTP_MSG`, `uri` are the bytes of `hm->uri`. -/
def http_fn (is_http_msg : Bool) (stat : StatFn) (root uri : List Char) : Route :=
  if is_http_msg = false then Route.ignored
  else if path_has_extension uri = true then Route.static_file
  else serve_markdown_route stat root uri

/-- The conversion `(int)n` of a `size_t` to a 32-bit `int`. -/
def to_int (n : Nat) : Int :=
  if n % 2 ^ 32 < 2 ^ 31 then ((n % 2 ^ 32 : Nat) : Int) else ((n % 2 ^ 32 : Nat) : Int) - 2 ^ 32

/-- What the conversion `%.*s` prints for the precision `prec` and the C string `s`: at
most `prec` bytes of it, all of it when the precision is negative. -/
def fmt_precision_s (prec : Int) (s : List Char) : List Char :=
  if prec < 0 then cstr s else (cstr s).take prec.toNat

/-- The assembly of the response body in `serve_markdown`: the buffer `body` after the
calls of `buf_putn` and `buf_puts`, whose return values are not looked at; `html` is
`html.p ? html.p : ""`, `layout` is `none` for `NULL`, and `r1`, `r2`, `r3` are the
outcomes of `realloc` in the calls. -/
def serve_markdown_body (r1 r2 r3 : Option (Nat → Char)) (html : List Char)
    (layout : Option (List Char)) : Option Buf :=
  match layout with
  | some lay =>
    match strstr (cstr lay) BODY_PH with
    | some ip =>
      match buf_putn Buf.empty ((cstr lay).take ip) r1 with
      | none => none
      | some (_, b1) =>
        match buf_puts b1 html r2 with
        | none => none
        | some (_, b2) =>
          match buf_puts b2 ((cstr lay).drop (ip + BODY_PH.length)) r3 with
          | none => none
          | some (_, b3) => some b3
    | none =>
      match buf_puts Buf.empty lay r1 with
      | none => none
      | some (_, b1) =>
        match buf_puts b1 html r2 with
        | none => none
        | some (_, b2) => some b2
  | none =>
    match buf_puts Buf.empty html r1 with
    | none => none
    | some (_, b1) => some b1

/-- The body `mg_http_reply` sends for the format `"%.*s"` with the arguments
`(int)body.len` and `body.p ? body.p : ""`; the string at `body.p` is the contents of the
buffer up to a `NUL`, the byte at index `len` being `NUL`. -/
def serve_reply_body (body : Buf) : List Char :=
  fmt_precision_s (to_int body.len) (Buf.contents body)

/-! ## Lines of a text, for stating properties -/

/-- The lines of a text: each line without its newline, and whether a newline ends it.
A text that ends in a newline has no further, empty line. -/
def splitLines : List Char → List (List Char × Bool)
  | [] => []
  | c :: cs =>
    if c = '\n' then ([], true) :: splitLines cs
    else
      match splitLines cs with
      | [] => [([c], false)]
      | (l, nl) :: rest => (c :: l, nl) :: rest

/-- A line with its newline, when it has one. -/
def lineText (seg : List Char × Bool) : List Char :=
  seg.1 ++ (if seg.2 then ['\n'] else [])

/-- The rewriting of one line that the aside directives ask for. -/
def asideRewrite (seg : List Char × Bool) : List Char :=
  if line_trim seg.1 = "[sidenote]".toList then "<div class=\"sidenote\">\n".toList
  else if line_trim seg.1 = "[/sidenote]".toList then "</div>\n".toList
  else lineText seg

/-- The rounds of the loop of `preprocess` over lines that are already split. -/
def foldLines (fs : FileSys) : List (List Char × Bool) → Arena → List Char →
    Option (Arena × List Char)
  | [], a, out => some (a, out)
  | seg :: rest, a, out =>
    match preprocess_line fs a seg.1 seg.2 out with
    | none => none
    | some (a1, out1) => foldLines fs rest a1 out1

/-- The text after the first line of a text: what follows its first newline. -/
def afterLine (l : List Char) : List Char := (l.dropWhile (fun c => c ≠ '\n')).drop 1

/-- No start marker of the snippet `name` in the file bytes `f` has an end marker after
it: wherever "//snippet " followed by `name` begins at the start of `f` or right after a
newline, "//endsnippet" does not occur in the text after that line. -/
def noSnippetPair (f name : List Char) : Prop :=
  ∀ i, i ≤ f.length → (i = 0 ∨ f.getD (i - 1) NUL = '\n') →
    (SNIPPET_S ++ name) <+: f.drop i → ¬ (SNIPPET_E <:+: afterLine (f.drop i))

instance (f name : List Char) : Decidable (noSnippetPair f name) := by
  unfold noSnippetPair
  infer_instance

/-- A file system with the one file foo.c, which has a snippet `other` and a start marker
of a snippet `demo` without an end marker. -/
def demoFiles : FileSys := fun p =>
  if p = "foo.c".toList then
    FileRead.ok "//snippet other\nint x;\n//endsnippet\n//snippet demo\nint y;\n".toList
  else FileRead.open_fails

/-- The lines of a text in the usual sense: the pieces between its newlines.  A text with
`n` newlines has `n + 1` lines, the last of which is empty when the text ends in a
newline. -/
def linesOf : List Char → List (List Char)
  | [] => [[]]
  | c :: cs =>
    if c = '\n' then [] :: linesOf cs
    else
      match linesOf cs with
      | [] => [[c]]
      | l :: ls => (c :: l) :: ls

/-- The text with the given lines: the lines with a newline between each two. -/
def joinLines : List (List Char) → List Char
  | [] => []
  | [l] => l
  | l :: l2 :: ls => l ++ '\n' :: joinLines (l2 :: ls)

/-- A line as whole-file inclusion emits it: empty when it begins with "//snippet " or
with "//endsnippet", itself otherwise. -/
def stripMarkerLine (l : List Char) : List Char :=
  if "//snippet ".toList <+: l ∨ "//endsnippet".toList <+: l then [] else l

/-- A file system with a directory `d`, for which `fstat` reports 40 bytes and `read`
fails, and a file `f` of 24 bytes. -/
def leakFiles : FileSys := fun p =>
  if p = "d".toList then FileRead.read_fails 40
  else if p = "f".toList then FileRead.ok "static int answer = 30;\n".toList
  else FileRead.open_fails

/-- An arena of 8 MiB, as `md_to_html_file` creates it, in which the layout and the
document read into the permanent region have left 64 bytes free. -/
def arena_nearly_full : Arena :=
  { base := fun _ => NUL, cap := 8388608, perm_p := 8388544, temp_p := 8388608 }

/-- The output bytes of wrapping: the body alone without a layout; the layout with its
first placeholder replaced by the body; the layout followed by the body when it has no
placeholder. -/
def wrapBytes (html : List Char) (layout : Option (List Char)) : List Char :=
  match layout with
  | none => cstr html
  | some lay =>
    match strstr (cstr lay) BODY_PH with
    | some ip => (cstr lay).take ip ++ cstr html ++ (cstr lay).drop (ip + BODY_PH.length)
    | none => cstr lay ++ cstr html

/-- A file system without files. -/
def noFiles : FileSys := fun _ => FileRead.open_fails

/-! ## Facts about machine words -/

theorem land_align_mask (m : Nat) (h : m < 2 ^ 64) : m &&& (2 ^ 64 - 1 - 7) = m - m % 8 := by
  have e1 : (2 : Nat) ^ 64 - 1 - 7 = 2 ^ 3 * (2 ^ 61 - 1) := by norm_num
  have e2 : m - m % 8 = 2 ^ 3 * (m >>> 3) := by
    rw [Nat.shiftRight_eq_div_pow]; omega
  rw [e1, e2]
  apply Nat.eq_of_testBit_eq
  intro i
  rw [Nat.testBit_and, Nat.testBit_mul_pow_two, Nat.testBit_mul_pow_two,
    Nat.testBit_two_pow_sub_one, Nat.testBit_shiftRight]
  by_cases h3 : i ≥ 3
  · have e3 : 3 + (i - 3) = i := by omega
    rw [e3]
    by_cases h64 : i < 64
    · have h61 : i - 3 < 61 := by omega
      simp [h3, h61]
    · have hm : m.testBit i = false := by
        apply Nat.testBit_lt_two_pow
        calc m < 2 ^ 64 := h
          _ ≤ 2 ^ i := Nat.pow_le_pow_right (by norm_num) (by omega)
      simp [hm]
  · simp [h3]

theorem ARENA_ALIGN_eq (n : Nat) :
    ARENA_ALIGN n = (n + 7) % 2 ^ 64 - ((n + 7) % 2 ^ 64) % 8 := by
  have hm : (n + 7) % 2 ^ 64 < 2 ^ 64 := Nat.mod_lt _ (by norm_num)
  have := land_align_mask _ hm
  simpa [ARENA_ALIGN, ALIGN_UP, size_add, SIZE_MOD, PTR_SIZE] using this

theorem ARENA_ALIGN_lt (n : Nat) : ARENA_ALIGN n < 2 ^ 64 := by
  rw [ARENA_ALIGN_eq]
  have hm : (n + 7) % 2 ^ 64 < 2 ^ 64 := Nat.mod_lt _ (by norm_num)
  omega

theorem ARENA_ALIGN_small (n : Nat) (h : n + 7 < 2 ^ 64) :
    ARENA_ALIGN n = (n + 7) / 8 * 8 := by
  rw [ARENA_ALIGN_eq, Nat.mod_eq_of_lt h]
  omega

theorem size_sub_eq (x y : Nat) (hx : x < 2 ^ 64) (hy : y ≤ x) : size_sub x y = x - y := by
  unfold size_sub SIZE_MOD
  have hy2 : y % 2 ^ 64 = y := Nat.mod_eq_of_lt (by omega)
  rw [hy2]
  have e : x + 2 ^ 64 - y = (x - y) + 2 ^ 64 := by omega
  rw [e, Nat.add_mod_right, Nat.mod_eq_of_lt (by omega)]

theorem size_add_eq (x y : Nat) (h : x + y < 2 ^ 64) : size_add x y = x + y := by
  unfold size_add SIZE_MOD
  exact Nat.mod_eq_of_lt h

/-! ## Arena -/

theorem arena_init_inv (blk : Option (Nat → Char)) (cap : Nat) (a : Arena)
    (hc : cap < SIZE_MOD) (h : arena_init blk cap = some a) : ArenaInv a := by
  cases blk with
  | none => simp [arena_init] at h
  | some m =>
    simp only [arena_init, Option.some.injEq] at h
    subst h
    exact ⟨hc, Nat.zero_le _, Nat.le_refl _⟩

theorem arena_alloc_perm_inv (a : Arena) (n : Nat) (h : ArenaInv a) :
    ArenaInv (arena_alloc_perm a n).2 := by
  obtain ⟨hc, h1, h2⟩ := h
  unfold SIZE_MOD at hc
  have hs := size_sub_eq a.temp_p a.perm_p (by omega) h1
  unfold arena_alloc_perm
  simp only [hs]
  split
  · exact ⟨hc, h1, h2⟩
  · rename_i hgt
    have hadd := size_add_eq a.perm_p (ARENA_ALIGN n) (by omega)
    refine ⟨hc, ?_, h2⟩
    show size_add a.perm_p (ARENA_ALIGN n) ≤ a.temp_p
    omega

theorem arena_alloc_temp_inv (a : Arena) (n : Nat) (h : ArenaInv a) :
    ArenaInv (arena_alloc_temp a n).2 := by
  obtain ⟨hc, h1, h2⟩ := h
  unfold SIZE_MOD at hc
  have hs := size_sub_eq a.temp_p a.perm_p (by omega) h1
  unfold arena_alloc_temp
  simp only [hs]
  split
  · exact ⟨hc, h1, h2⟩
  · rename_i hgt
    have hsub := size_sub_eq a.temp_p (ARENA_ALIGN n) (by omega) (by omega)
    refine ⟨hc, ?_, ?_⟩
    · show a.perm_p ≤ size_sub a.temp_p (ARENA_ALIGN n)
      omega
    · show size_sub a.temp_p (ARENA_ALIGN n) ≤ a.cap
      omega

theorem arena_reset_temp_inv (a : Arena) (h : ArenaInv a) : ArenaInv (arena_reset_temp a) := by
  obtain ⟨hc, h1, h2⟩ := h
  exact ⟨hc, Nat.le_trans h1 h2, Nat.le_refl _⟩

theorem arena_reachable_inv (a : Arena) (h : ArenaReachable a) : ArenaInv a := by
  induction h with
  | init blk cap a hc hi => exact arena_init_inv blk cap a hc hi
  | alloc_perm a n _ ih => exact arena_alloc_perm_inv a n ih
  | alloc_temp a n _ ih => exact arena_alloc_temp_inv a n ih
  | reset_temp a _ ih => exact arena_reset_temp_inv a ih

/-- C1: in every arena state reachable from `arena_init(cap)` by calls of
`arena_alloc_perm`, `arena_alloc_temp` (any size, successful or not) and
`arena_reset_temp`, `perm_p <= temp_p <= cap` holds, so no offset lies both in the
permanent region `[0, perm_p)` and in the temporary region `[temp_p, cap)`. -/
theorem arena_regions_never_overlap (a : Arena) (h : ArenaReachable a) :
    a.perm_p ≤ a.temp_p ∧ a.temp_p ≤ a.cap ∧
    ∀ i : Nat, ¬ (i < a.perm_p ∧ (a.temp_p ≤ i ∧ i < a.cap)) := by
  obtain ⟨_, h1, h2⟩ := arena_reachable_inv a h
  refine ⟨h1, h2, ?_⟩
  intro i hi
  omega

/-- Witness of C1: an arena of 64 bytes after a permanent allocation of 10 bytes, a
temporary allocation of 20 bytes, an allocation that fails and a reset. -/
theorem arena_regions_never_overlap_witness :
    ArenaReachable arena_demo ∧
    (arena_demo.perm_p ≤ arena_demo.temp_p ∧ arena_demo.temp_p ≤ arena_demo.cap ∧
      ∀ i : Nat, ¬ (i < arena_demo.perm_p ∧ (arena_demo.temp_p ≤ i ∧ i < arena_demo.cap))) :=
  ⟨ArenaReachable.reset_temp _ (ArenaReachable.alloc_perm _ _ (ArenaReachable.alloc_temp _ _
      (ArenaReachable.alloc_perm _ _ (ArenaReachable.init (some (fun _ => NUL)) 64 _
        (by decide) rfl)))),
    arena_regions_never_overlap arena_demo
      (ArenaReachable.reset_temp _ (ArenaReachable.alloc_perm _ _
        (ArenaReachable.alloc_temp _ _ (ArenaReachable.alloc_perm _ _
          (ArenaReachable.init (some (fun _ => NUL)) 64 _ (by decide) rfl)))))⟩

theorem arena_gap_eq (a : Arena) (ha : ArenaInv a) :
    size_sub a.temp_p a.perm_p = a.temp_p - a.perm_p := by
  obtain ⟨hc, h1, h2⟩ := ha
  unfold SIZE_MOD at hc
  exact size_sub_eq a.temp_p a.perm_p (by omega) h1

/-- Counterexample to C2 as stated.  In a fresh arena of 4 bytes a request of 1 byte fits
in the free gap of 4 bytes, yet both allocators return nothing, because the request is
first rounded up to 8 bytes.  And in a fresh arena of 64 bytes a request of `2 ^ 64 - 1`
bytes does not fit in the gap, yet `arena_alloc_perm` returns a block, of zero bytes,
because the rounding wraps around. -/
theorem arena_alloc_fit_counterexample :
    (1 ≤ (arena_fresh 4).temp_p - (arena_fresh 4).perm_p ∧
      (arena_alloc_perm (arena_fresh 4) 1).1 = none ∧
      (arena_alloc_temp (arena_fresh 4) 1).1 = none) ∧
    (¬ (2 ^ 64 - 1 ≤ (arena_fresh 64).temp_p - (arena_fresh 64).perm_p) ∧
      (arena_alloc_perm (arena_fresh 64) (2 ^ 64 - 1)).1 = some 0 ∧
      (arena_alloc_perm (arena_fresh 64) (2 ^ 64 - 1)).2.perm_p = 0 ∧
      (arena_alloc_temp (arena_fresh 64) (2 ^ 64 - 1)).1 = some 64) := by
  decide

/-- C2 (amended): for every arena state with `perm_p <= temp_p <= cap` and every request
size `n <= SIZE_MAX - 7`, the request is rounded up to `r`, the least multiple of 8 that is
at least `n`; `arena_alloc_perm(n)` and `arena_alloc_temp(n)` return nothing exactly when
`r` exceeds the free gap `temp_p - perm_p`; a failed call leaves the arena unchanged; a
successful call hands out the block `[off, off + r)` with `n <= r`, lying wholly inside
the gap that existed before the call (at its lower end for `arena_alloc_perm`, at its
upper end for `arena_alloc_temp`).  When the gap is a multiple of 8, the calls fail
exactly when `n` itself exceeds the gap. -/
theorem arena_alloc_fails_iff_rounded_size_exceeds_gap (a : Arena) (n : Nat)
    (ha : ArenaInv a) (hn : n + 7 < SIZE_MOD) :
    (n ≤ ARENA_ALIGN n ∧ ARENA_ALIGN n % 8 = 0 ∧ ARENA_ALIGN n < n + 8) ∧
    (((arena_alloc_perm a n).1 = none ↔ ARENA_ALIGN n > a.temp_p - a.perm_p) ∧
     ((arena_alloc_perm a n).1 = none → (arena_alloc_perm a n).2 = a) ∧
     (∀ off, (arena_alloc_perm a n).1 = some off →
        off = a.perm_p ∧ off + ARENA_ALIGN n ≤ a.temp_p ∧
        (arena_alloc_perm a n).2.perm_p = off + ARENA_ALIGN n ∧
        (arena_alloc_perm a n).2.temp_p = a.temp_p)) ∧
    (((arena_alloc_temp a n).1 = none ↔ ARENA_ALIGN n > a.temp_p - a.perm_p) ∧
     ((arena_alloc_temp a n).1 = none → (arena_alloc_temp a n).2 = a) ∧
     (∀ off, (arena_alloc_temp a n).1 = some off →
        a.perm_p ≤ off ∧ off + ARENA_ALIGN n = a.temp_p ∧
        (arena_alloc_temp a n).2.temp_p = off ∧
        (arena_alloc_temp a n).2.perm_p = a.perm_p)) ∧
    ((a.temp_p - a.perm_p) % 8 = 0 →
      ((arena_alloc_perm a n).1 = none ↔ n > a.temp_p - a.perm_p) ∧
      ((arena_alloc_temp a n).1 = none ↔ n > a.temp_p - a.perm_p)) := by
  have hgap := arena_gap_eq a ha
  obtain ⟨hc, h1, h2⟩ := ha
  unfold SIZE_MOD at hc hn
  have hr := ARENA_ALIGN_small n hn
  have hr1 : n ≤ ARENA_ALIGN n := by omega
  have hr2 : ARENA_ALIGN n % 8 = 0 := by omega
  have hr3 : ARENA_ALIGN n < n + 8 := by omega
  have hP : (arena_alloc_perm a n).1 = none ↔ ARENA_ALIGN n > a.temp_p - a.perm_p := by
    unfold arena_alloc_perm
    simp only [hgap]
    split <;> simp_all
  have hT : (arena_alloc_temp a n).1 = none ↔ ARENA_ALIGN n > a.temp_p - a.perm_p := by
    unfold arena_alloc_temp
    simp only [hgap]
    split <;> simp_all
  refine ⟨⟨hr1, hr2, hr3⟩, ⟨hP, ?_, ?_⟩, ⟨hT, ?_, ?_⟩, ?_⟩
  · unfold arena_alloc_perm
    simp only [hgap]
    split <;> simp
  · intro off
    unfold arena_alloc_perm
    simp only [hgap]
    split
    · simp
    · rename_i hle
      intro ho
      simp only [Option.some.injEq] at ho
      have hadd := size_add_eq a.perm_p (ARENA_ALIGN n) (by omega)
      subst ho
      refine ⟨rfl, by omega, hadd, rfl⟩
  · unfold arena_alloc_temp
    simp only [hgap]
    split <;> simp
  · intro off
    unfold arena_alloc_temp
    simp only [hgap]
    split
    · simp
    · rename_i hle
      intro ho
      simp only [Option.some.injEq] at ho
      have hsub := size_sub_eq a.temp_p (ARENA_ALIGN n) (by omega) (by omega)
      subst ho
      refine ⟨by omega, by omega, rfl, rfl⟩
  · intro h8
    rw [hP, hT]
    constructor <;> omega

/-- Witness of C2 (amended): a request of 10 bytes in a fresh arena of 64 bytes. -/
theorem arena_alloc_fails_iff_rounded_size_exceeds_gap_witness :
    ArenaInv (arena_fresh 64) ∧ 10 + 7 < SIZE_MOD ∧
    (arena_alloc_perm (arena_fresh 64) 10).1 = some 0 ∧
    (arena_alloc_perm (arena_fresh 64) 10).2.perm_p = 0 + ARENA_ALIGN 10 :=
  ⟨by decide, by decide, by decide,
    ((arena_alloc_fails_iff_rounded_size_exceeds_gap (arena_fresh 64) 10
      (by decide) (by decide)).2.1.2.2 0 (by decide)).2.2.1⟩

/-- C3: `arena_reset_temp` sets `temp_p` to `cap` and leaves `perm_p`, `cap` and every
byte of the block, in particular those of the permanent region `[0, perm_p)`, unchanged;
after it the whole of `[perm_p, cap)` is free again: in a well-formed arena a following
temporary allocation fails exactly when its rounded size exceeds `cap - perm_p`. -/
theorem arena_reset_temp_frame (a : Arena) :
    (arena_reset_temp a).temp_p = a.cap ∧
    (arena_reset_temp a).perm_p = a.perm_p ∧
    (arena_reset_temp a).cap = a.cap ∧
    (∀ i : Nat, i < a.perm_p → (arena_reset_temp a).base i = a.base i) ∧
    (ArenaInv a → ∀ n : Nat,
      ((arena_alloc_temp (arena_reset_temp a) n).1 = none ↔
        ARENA_ALIGN n > a.cap - a.perm_p)) := by
  refine ⟨rfl, rfl, rfl, fun _ _ => rfl, ?_⟩
  intro ha n
  have hgap := arena_gap_eq (arena_reset_temp a) (arena_reset_temp_inv a ha)
  have hgap2 : size_sub (arena_reset_temp a).temp_p (arena_reset_temp a).perm_p
      = a.cap - a.perm_p := hgap
  unfold arena_alloc_temp
  simp only [hgap2]
  split <;> simp_all

/-- Witness of C3: after the reset of `arena_demo` (16 permanent bytes of 64) a temporary
allocation of 48 bytes succeeds and one of 49 bytes fails. -/
theorem arena_reset_temp_frame_witness :
    ArenaInv arena_demo ∧
    ¬ ((arena_alloc_temp (arena_reset_temp arena_demo) 48).1 = none) ∧
    (arena_alloc_temp (arena_reset_temp arena_demo) 49).1 = none :=
  ⟨by decide,
    fun h => absurd (((arena_reset_temp_frame arena_demo).2.2.2.2 (by decide) 48).1 h)
      (by decide),
    ((arena_reset_temp_frame arena_demo).2.2.2.2 (by decide) 49).2 (by decide)⟩

/-! ## Growable buffer -/

theorem grow_loop_spec (fuel ncap need r : Nat) (h : grow_loop fuel ncap need = some r)
    (hc : ncap < SIZE_MOD) : need ≤ r ∧ r < SIZE_MOD := by
  induction fuel generalizing ncap with
  | zero => simp [grow_loop] at h
  | succ k ih =>
    unfold grow_loop at h
    split at h
    · exact ih _ h (Nat.mod_lt _ (by decide))
    · simp only [Option.some.injEq] at h
      subst h
      exact ⟨by omega, hc⟩

theorem grow_loop_terminates (k ncap need : Nat) (hn : need ≤ 2 ^ 63)
    (hk : need ≤ ncap * 2 ^ k) : (grow_loop (k + 1) ncap need).isSome = true := by
  induction k generalizing ncap with
  | zero =>
    unfold grow_loop
    have : ¬ ncap < need := by omega
    simp [this]
  | succ k ih =>
    unfold grow_loop
    split
    · rename_i hlt
      have hm : (ncap * 2) % SIZE_MOD = ncap * 2 := by
        unfold SIZE_MOD
        exact Nat.mod_eq_of_lt (by omega)
      rw [hm]
      apply ih
      calc need ≤ ncap * 2 ^ (k + 1) := hk
        _ = ncap * 2 * 2 ^ k := by ring
    · rfl

theorem map_range_congr {α : Type} (f g : Nat → α) (n : Nat) (h : ∀ i, i < n → f i = g i) :
    (List.range n).map f = (List.range n).map g := by
  apply List.map_congr_left
  intro i hi
  exact h i (List.mem_range.mp hi)

theorem map_range_getD (s : List Char) (d : Char) :
    (List.range s.length).map (fun j => s.getD j d) = s := by
  apply List.ext_getElem
  · simp
  · intro i h1 h2
    simp [List.getD_eq_getElem?_getD, List.getElem?_eq_getElem h2]

theorem buf_grow_spec (b : Buf) (add : Nat) (r : Option (Nat → Char)) (rc : Int) (b1 : Buf)
    (hb : BufOK b) (hsz : b.len + add + 1 < SIZE_MOD) (h : buf_grow b add r = some (rc, b1)) :
    (rc = -1 ∧ b1 = b ∧ r = none) ∨
    (rc = 0 ∧ b1.len = b.len ∧ b.len + add + 1 ≤ b1.cap ∧ b1.cap < SIZE_MOD ∧
      b1.p.isSome = true ∧ Buf.contents b1 = Buf.contents b) := by
  obtain ⟨hcap, hshape⟩ := hb
  have hneed : size_add (size_add b.len add) 1 = b.len + add + 1 := by
    unfold SIZE_MOD at hsz
    rw [size_add_eq b.len add (by omega), size_add_eq _ 1 (by omega)]
  unfold buf_grow at h
  simp only [hneed] at h
  split at h
  · rename_i hle
    simp only [Option.some.injEq, Prod.mk.injEq] at h
    obtain ⟨h1, h2⟩ := h
    subst h1 h2
    right
    rcases hshape with ⟨_, _, h0⟩ | ⟨hp, _, _⟩
    · omega
    · exact ⟨rfl, rfl, hle, hcap, hp, rfl⟩
  · rename_i hgt
    split at h
    · simp at h
    · rename_i ncap hloop
      have hstart : (if b.cap ≠ 0 then b.cap else 4096) < SIZE_MOD := by
        split
        · exact hcap
        · decide
      obtain ⟨hge, hlt⟩ := grow_loop_spec _ _ _ _ hloop hstart
      cases r with
      | none =>
        simp only [Option.some.injEq, Prod.mk.injEq] at h
        obtain ⟨h1, h2⟩ := h
        subst h1 h2
        left
        exact ⟨rfl, rfl, rfl⟩
      | some fresh =>
        simp only [Option.some.injEq, Prod.mk.injEq] at h
        obtain ⟨h1, h2⟩ := h
        subst h1 h2
        right
        refine ⟨rfl, rfl, hge, hlt, rfl, ?_⟩
        rcases hshape with ⟨hp, hl, _⟩ | ⟨hp, hl, _⟩
        · simp [Buf.contents, hl]
          cases hbp : b.p <;> simp
        · cases hbp : b.p with
          | none => simp [hbp] at hp
          | some m =>
            simp only [Buf.contents, hbp]
            apply map_range_congr
            intro i hi
            have : i < b.cap := by omega
            simp [realloc_block, this]

theorem buf_grow_frame (b : Buf) (add : Nat) (r : Option (Nat → Char)) (rc : Int) (b1 : Buf)
    (hb : BufOK b) (h : buf_grow b add r = some (rc, b1)) :
    (rc = -1 ∧ b1 = b ∧ r = none) ∨
    (rc = 0 ∧ b1.len = b.len ∧ b1.cap < SIZE_MOD ∧ Buf.contents b1 = Buf.contents b) := by
  obtain ⟨hcap, hshape⟩ := hb
  unfold buf_grow at h
  simp only at h
  split at h
  · simp only [Option.some.injEq, Prod.mk.injEq] at h
    obtain ⟨h1, h2⟩ := h
    subst h1 h2
    exact Or.inr ⟨rfl, rfl, hcap, rfl⟩
  · split at h
    · simp at h
    · rename_i ncap hloop
      have hstart : (if b.cap ≠ 0 then b.cap else 4096) < SIZE_MOD := by
        split
        · exact hcap
        · decide
      obtain ⟨_, hlt⟩ := grow_loop_spec _ _ _ _ hloop hstart
      cases r with
      | none =>
        simp only [Option.some.injEq, Prod.mk.injEq] at h
        obtain ⟨h1, h2⟩ := h
        subst h1 h2
        exact Or.inl ⟨rfl, rfl, rfl⟩
      | some fresh =>
        simp only [Option.some.injEq, Prod.mk.injEq] at h
        obtain ⟨h1, h2⟩ := h
        subst h1 h2
        refine Or.inr ⟨rfl, rfl, hlt, ?_⟩
        rcases hshape with ⟨hp, hl, _⟩ | ⟨hp, hl, _⟩
        · simp [Buf.contents, hl]
          cases hbp : b.p <;> simp
        · cases hbp : b.p with
          | none => simp [hbp] at hp
          | some m =>
            simp only [Buf.contents, hbp]
            apply map_range_congr
            intro i hi
            have : i < b.cap := by omega
            simp [realloc_block, this]

theorem buf_putn_spec (b : Buf) (s : List Char) (r : Option (Nat → Char)) (rc : Int) (b1 : Buf)
    (hb : BufOK b) (h : buf_putn b s r = some (rc, b1)) :
    (rc = -1 ∧ b1 = b ∧ r = none) ∨
    (rc = 0 ∧ Buf.contents b1 = Buf.contents b ++ s ∧ b1.len = b.len + s.length ∧
      b1.len < b1.cap ∧ b1.byte b1.len = some NUL ∧ BufOK b1) := by
  unfold buf_putn at h
  split at h
  · simp at h
  · rename_i rc0 b0 hg
    rcases buf_grow_frame b s.length r rc0 b0 hb hg with
      ⟨h1, h2, h3⟩ | ⟨h1, hlen, hcl, hcont⟩
    · subst h1 h2
      simp only [ne_eq, Int.reduceNeg, neg_eq_zero, one_ne_zero, not_false_eq_true,
        ↓reduceIte, Option.some.injEq, Prod.mk.injEq] at h
      left
      exact ⟨h.1.symm, h.2.symm, h3⟩
    · subst h1
      simp only [ne_eq, not_true_eq_false, ↓reduceIte] at h
      split at h
      · simp at h
      · rename_i m hm
        split at h
        · simp at h
        · rename_i hfit
          simp only [Option.some.injEq, Prod.mk.injEq] at h
          obtain ⟨h1, h2⟩ := h
          subst h1 h2
          have hadd : size_add b0.len s.length = b0.len + s.length := by
            unfold SIZE_MOD at hcl
            exact size_add_eq _ _ (by omega)
          right
          refine ⟨rfl, ?_, ?_, ?_, ?_, ?_⟩
          · show Buf.contents { p := some _, len := size_add b0.len s.length, cap := b0.cap } = _
            rw [hadd]
            rw [← hcont]
            simp only [Buf.contents, hm]
            rw [List.range_add, List.map_append, List.map_map]
            congr 1
            · apply map_range_congr
              intro i hi
              have h1 : ¬ (i = b0.len + s.length) := by omega
              have h2 : ¬ (b0.len ≤ i ∧ i < b0.len + s.length) := by omega
              simp [h1, h2]
            · conv_rhs => rw [← map_range_getD s NUL]
              apply map_range_congr
              intro i hi
              have h1 : ¬ (b0.len + i = b0.len + s.length) := by omega
              simp [h1, hi]
          · show size_add b0.len s.length = b.len + s.length
            rw [hadd, hlen]
          · show size_add b0.len s.length < b0.cap
            rw [hadd]
            omega
          · simp [Buf.byte]
          · refine ⟨hcl, Or.inr ⟨rfl, ?_, by simp [Buf.byte]⟩⟩
            show size_add b0.len s.length < b0.cap
            rw [hadd]
            omega

theorem buf_putn_returns (b : Buf) (s : List Char) (r : Option (Nat → Char))
    (hb : BufOK b) (hsz : b.len + s.length + 1 ≤ 2 ^ 63) :
    ∃ rc b1, buf_putn b s r = some (rc, b1) ∧ (r.isSome = true → rc = 0) := by
  have hsz2 : b.len + s.length + 1 < SIZE_MOD := by unfold SIZE_MOD; omega
  have hgrow : ∃ rc b0, buf_grow b s.length r = some (rc, b0) := by
    have hneed : size_add (size_add b.len s.length) 1 = b.len + s.length + 1 := by
      unfold SIZE_MOD at hsz2
      rw [size_add_eq b.len s.length (by omega), size_add_eq _ 1 (by omega)]
    unfold buf_grow
    simp only [hneed]
    split
    · exact ⟨_, _, rfl⟩
    · have ht : (grow_loop GROW_FUEL (if b.cap ≠ 0 then b.cap else 4096)
          (b.len + s.length + 1)).isSome = true := by
        apply grow_loop_terminates 64 _ _ hsz
        have h1 : 1 ≤ (if b.cap ≠ 0 then b.cap else 4096) := by split <;> omega
        calc b.len + s.length + 1 ≤ 2 ^ 63 := hsz
          _ ≤ 1 * 2 ^ 64 := by norm_num
          _ ≤ _ := Nat.mul_le_mul_right _ h1
      obtain ⟨c, hc⟩ := Option.isSome_iff_exists.mp ht
      simp only [hc]
      cases r <;> exact ⟨_, _, rfl⟩
  obtain ⟨rc0, b0, hg⟩ := hgrow
  rcases buf_grow_spec b s.length r rc0 b0 hb hsz2 hg with
    ⟨h1, h2, h3⟩ | ⟨h1, hlen, hcap, hcl, hp, hcont⟩
  · subst h1 h3
    refine ⟨-1, b0, ?_, by simp⟩
    unfold buf_putn
    simp [hg]
  · subst h1
    obtain ⟨m, hm⟩ := Option.isSome_iff_exists.mp hp
    have hfit : ¬ (b0.len + s.length + 1 > b0.cap) := by omega
    have hex : ∃ b1, buf_putn b s r = some (0, b1) := by
      unfold buf_putn
      simp only [hg, hm, ne_eq, not_true_eq_false, ↓reduceIte, hfit]
      exact ⟨_, rfl⟩
    obtain ⟨b1, hb1⟩ := hex
    exact ⟨0, b1, hb1, fun _ => rfl⟩

/-- C4: the empty buffer `{0}` satisfies the buffer invariant, and for every buffer built
from it (invariant `BufOK`) and every `n` bytes `s`: after a successful `buf_putn` the
buffer holds the old contents followed by the `n` bytes, `len` has grown by exactly `n`,
`len < cap`, the byte at index `len` is `NUL`, and the invariant holds again; a failed
`buf_putn` (return value `-1`, which happens only when `realloc` fails) leaves the buffer
unchanged; the same holds for `buf_puts` with the bytes of the C string; and whenever
`len + n + 1 <= 2 ^ 63` both calls do return, with success if `realloc` succeeds. -/
theorem buf_putn_appends_and_terminates (b : Buf) (s : List Char) (r : Option (Nat → Char))
    (hb : BufOK b) :
    BufOK Buf.empty ∧
    (∀ rc b1, buf_putn b s r = some (rc, b1) →
      (rc = 0 ∧ Buf.contents b1 = Buf.contents b ++ s ∧ b1.len = b.len + s.length ∧
        b1.len < b1.cap ∧ b1.byte b1.len = some NUL ∧ BufOK b1) ∨
      (rc = -1 ∧ b1 = b ∧ r = none)) ∧
    (∀ rc b1, buf_puts b s r = some (rc, b1) →
      (rc = 0 ∧ Buf.contents b1 = Buf.contents b ++ cstr s ∧ b1.len = b.len + strlen s ∧
        b1.len < b1.cap ∧ b1.byte b1.len = some NUL ∧ BufOK b1) ∨
      (rc = -1 ∧ b1 = b ∧ r = none)) ∧
    (b.len + s.length + 1 ≤ 2 ^ 63 →
      ∃ rc b1, buf_putn b s r = some (rc, b1) ∧ (r.isSome = true → rc = 0)) ∧
    (b.len + strlen s + 1 ≤ 2 ^ 63 →
      ∃ rc b1, buf_puts b s r = some (rc, b1) ∧ (r.isSome = true → rc = 0)) ∧
    (b.len + strlen s + 1 ≤ 2 ^ 63 → r.isSome = true →
      ∃ b1, buf_puts b s r = some (0, b1) ∧
        Buf.contents b1 = Buf.contents b ++ cstr s ∧ b1.len = b.len + strlen s ∧
        b1.len < b1.cap ∧ b1.byte b1.len = some NUL) := by
  refine ⟨by decide, ?_, ?_, ?_, ?_, ?_⟩
  · intro rc b1 h
    exact (buf_putn_spec b s r rc b1 hb h).symm
  · intro rc b1 h
    exact (buf_putn_spec b (cstr s) r rc b1 hb h).symm
  · intro h63
    exact buf_putn_returns b s r hb h63
  · intro h63
    exact buf_putn_returns b (cstr s) r hb h63
  · intro h63 hr
    obtain ⟨rc, b1, h1, h2⟩ := buf_putn_returns b (cstr s) r hb h63
    have hrc : rc = 0 := h2 hr
    subst hrc
    rcases buf_putn_spec b (cstr s) r 0 b1 hb h1 with ⟨h, _⟩ | ⟨_, hc, hl, hlt, hn, _⟩
    · exact absurd h (by decide)
    · exact ⟨b1, h1, hc, hl, hlt, hn⟩

/-- Witness of C4: appending the two bytes of "hi" to the empty buffer with `buf_putn`,
and with `buf_puts` from a block that holds "hi", a `NUL` and further bytes. -/
theorem buf_putn_appends_and_terminates_witness :
    BufOK Buf.empty ∧
    (∃ b1, buf_putn Buf.empty "hi".toList (some (fun _ => 'x')) = some (0, b1) ∧
      Buf.contents b1 = "hi".toList ∧ b1.len = 2 ∧ b1.byte 2 = some NUL) ∧
    (∃ b1, buf_puts Buf.empty ("hi".toList ++ NUL :: "zz".toList) (some (fun _ => 'x'))
        = some (0, b1) ∧
      Buf.contents b1 = "hi".toList ∧ b1.len = 2 ∧ b1.byte 2 = some NUL) := by
  have hb : BufOK Buf.empty := by decide
  have T := buf_putn_appends_and_terminates Buf.empty "hi".toList (some (fun _ => 'x')) hb
  have U := buf_putn_appends_and_terminates Buf.empty ("hi".toList ++ NUL :: "zz".toList)
    (some (fun _ => 'x')) hb
  refine ⟨hb, ?_, ?_⟩
  · obtain ⟨rc, b1, h1, h2⟩ := T.2.2.2.1 (by decide)
    have hrc : rc = 0 := h2 rfl
    subst hrc
    rcases T.2.1 0 b1 h1 with ⟨_, hc, hl, _, hn, _⟩ | ⟨h, _⟩
    · have hl2 : b1.len = 2 := by simpa [Buf.empty] using hl
      refine ⟨b1, h1, ?_, hl2, ?_⟩
      · simpa [Buf.contents, Buf.empty] using hc
      · rw [← hl2]; exact hn
    · exact absurd h (by decide)
  · obtain ⟨b1, h1, hc, hl, _, hn⟩ := U.2.2.2.2.2 (by decide) rfl
    have hcs : cstr ("hi".toList ++ NUL :: "zz".toList) = "hi".toList := by decide
    have hsl : strlen ("hi".toList ++ NUL :: "zz".toList) = 2 := by decide
    have hl2 : b1.len = 2 := by
      rw [hl, hsl]
      rfl
    refine ⟨b1, h1, ?_, hl2, ?_⟩
    · rw [hc, hcs]
      rfl
    · rw [← hl2]; exact hn

/-! ## Lines -/

theorem cstr_of_no_nul (s : List Char) (h : NUL ∉ s) : cstr s = s := by
  unfold cstr
  rw [List.takeWhile_eq_self_iff]
  intro x hx
  have : x ≠ NUL := fun e => h (e ▸ hx)
  simpa using this

theorem nul_not_mem_cstr (s : List Char) : NUL ∉ cstr s := by
  unfold cstr
  intro h
  have := List.mem_takeWhile_imp h
  simp at this

theorem memchr_none (s : List Char) (c : Char) : memchr s c = none ↔ c ∉ s := by
  induction s with
  | nil => simp [memchr]
  | cons x xs ih =>
    unfold memchr
    by_cases hx : x = c
    · simp [hx]
    · have hx2 : ¬ c = x := fun e => hx e.symm
      simp [hx, hx2, ih]

theorem memchr_some (s : List Char) (c : Char) (k : Nat) (h : memchr s c = some k) :
    c ∉ s.take k ∧ s = s.take k ++ c :: s.drop (k + 1) := by
  induction s generalizing k with
  | nil => simp [memchr] at h
  | cons x xs ih =>
    unfold memchr at h
    by_cases hx : x = c
    · simp only [hx, ↓reduceIte, Option.some.injEq] at h
      subst h
      simp [hx]
    · simp only [hx, ↓reduceIte] at h
      cases hj : memchr xs c with
      | none => simp [hj] at h
      | some j =>
      simp only [hj, Option.map_some', Option.some.injEq] at h
      subst h
      obtain ⟨h1, h2⟩ := ih j hj
      have hx2 : ¬ c = x := fun e => hx e.symm
      refine ⟨by simp [hx2, h1], ?_⟩
      simp only [List.take_succ_cons, List.drop_succ_cons, List.cons_append, List.cons.injEq,
        true_and]
      exact h2

theorem memchr_append (l rest : List Char) (c : Char) (h : c ∉ l) :
    memchr (l ++ c :: rest) c = some l.length := by
  induction l with
  | nil => simp [memchr]
  | cons x xs ih =>
    have hx : ¬ x = c := fun e => h (by simp [e])
    have hxs : c ∉ xs := fun e => h (by simp [e])
    simp [memchr, hx, ih hxs]

theorem splitLines_no_nl (p : List Char) (hp : p ≠ []) (h : '\n' ∉ p) :
    splitLines p = [(p, false)] := by
  induction p with
  | nil => exact absurd rfl hp
  | cons c cs ih =>
    have hc : ¬ c = '\n' := fun e => h (by simp [e])
    have hcs : '\n' ∉ cs := fun e => h (by simp [e])
    unfold splitLines
    simp only [hc, ↓reduceIte]
    cases cs with
    | nil => simp [splitLines]
    | cons d ds => rw [ih (by simp) hcs]

theorem splitLines_append (l rest : List Char) (h : '\n' ∉ l) :
    splitLines (l ++ '\n' :: rest) = (l, true) :: splitLines rest := by
  induction l with
  | nil => simp [splitLines]
  | cons c cs ih =>
    have hc : ¬ c = '\n' := fun e => h (by simp [e])
    have hcs : '\n' ∉ cs := fun e => h (by simp [e])
    rw [List.cons_append, splitLines]
    simp only [hc, ↓reduceIte, ih hcs]

theorem splitLines_flatMap (p : List Char) : (splitLines p).flatMap lineText = p := by
  induction p with
  | nil => simp [splitLines]
  | cons c cs ih =>
    unfold splitLines
    by_cases hc : c = '\n'
    · simp [hc, lineText, ih]
    · simp only [hc, ↓reduceIte]
      cases hs : splitLines cs with
      | nil =>
        rw [hs] at ih
        simp only [List.flatMap_nil] at ih
        simp [lineText, ← ih]
      | cons seg rest =>
        obtain ⟨l, nl⟩ := seg
        rw [hs] at ih
        simp only [List.flatMap_cons, lineText] at ih ⊢
        rw [← ih]
        simp

theorem preprocess_loop_eq_foldLines (fs : FileSys) (fuel : Nat) (a : Arena)
    (p out : List Char) (h : p.length < fuel) :
    preprocess_loop fs fuel a p out = foldLines fs (splitLines p) a out := by
  induction fuel generalizing a p out with
  | zero => omega
  | succ n ih =>
    unfold preprocess_loop
    cases p with
    | nil => simp [splitLines, foldLines]
    | cons c cs =>
      simp only
      cases hk : strchr (c :: cs) '\n' with
      | none =>
        have hno : '\n' ∉ c :: cs := (memchr_none _ _).mp hk
        rw [splitLines_no_nl _ (by simp) hno]
        simp only [foldLines]
        cases preprocess_line fs a (c :: cs) false out with
        | none => rfl
        | some r => rfl
      | some k =>
        obtain ⟨h1, h2⟩ := memchr_some _ _ _ hk
        have hs : splitLines (c :: cs) =
            ((c :: cs).take k, true) :: splitLines ((c :: cs).drop (k + 1)) := by
          conv_lhs => rw [h2]
          exact splitLines_append _ _ h1
        rw [hs]
        simp only [foldLines]
        cases hl : preprocess_line fs a ((c :: cs).take k) true out with
        | none => rfl
        | some r =>
          obtain ⟨a1, out1⟩ := r
          simp only
          apply ih
          simp only [List.length_cons] at h
          simp only [List.drop_succ_cons, List.length_drop]
          omega

theorem preprocess_line_not_code (fs : FileSys) (a : Arena) (seg : List Char × Bool)
    (out : List Char) (h : ¬ ("$code ".toList <+: line_trim seg.1)) :
    preprocess_line fs a seg.1 seg.2 out = some (a, out ++ asideRewrite seg) := by
  have hc : ¬ (CODE_CMD.isPrefixOf (line_trim seg.1) = true) := by
    rw [List.isPrefixOf_iff_prefix]
    exact h
  unfold preprocess_line asideRewrite
  simp only [hc]
  have e1 : SIDENOTE_S = "[sidenote]".toList := rfl
  have e2 : SIDENOTE_E = "[/sidenote]".toList := rfl
  rw [e1, e2]
  split
  · have : SIDENOTE_R_S ++ ['\n'] = "<div class=\"sidenote\">\n".toList := by decide
    rw [List.append_assoc, this]
  · split
    · have : SIDENOTE_R_E ++ ['\n'] = "</div>\n".toList := by decide
      rw [List.append_assoc, this]
    · simp [lineText, List.append_assoc]

theorem foldLines_no_code (fs : FileSys) (a : Arena) (segs : List (List Char × Bool))
    (out : List Char) (h : ∀ seg ∈ segs, ¬ ("$code ".toList <+: line_trim seg.1)) :
    foldLines fs segs a out = some (a, out ++ segs.flatMap asideRewrite) := by
  induction segs generalizing out with
  | nil => simp [foldLines]
  | cons seg rest ih =>
    unfold foldLines
    rw [preprocess_line_not_code fs a seg out (h seg (by simp))]
    simp only
    rw [ih _ (fun s hs => h s (by simp [hs]))]
    simp [List.append_assoc]

theorem preprocess_no_code (fs : FileSys) (a : Arena) (src : List Char) (hnul : NUL ∉ src)
    (h : ∀ seg ∈ splitLines src, ¬ ("$code ".toList <+: line_trim seg.1)) :
    preprocess fs a src = some ((splitLines src).flatMap asideRewrite) := by
  unfold preprocess
  rw [cstr_of_no_nul src hnul, preprocess_loop_eq_foldLines fs _ a src [] (by omega),
    foldLines_no_code fs a _ [] h]
  simp

/-- C5: for every NUL-free text in which no line, after `line_trim` (leading spaces and
tabs, trailing spaces, tabs and carriage returns removed), is exactly "[sidenote]" or
exactly "[/sidenote]" or begins with "$code ", `preprocess` returns the text itself,
byte for byte, whatever the file system and the arena. -/
theorem preprocess_passthrough_identity (fs : FileSys) (a : Arena) (src : List Char)
    (hnul : NUL ∉ src)
    (hlines : ∀ seg ∈ splitLines src,
      line_trim seg.1 ≠ "[sidenote]".toList ∧ line_trim seg.1 ≠ "[/sidenote]".toList ∧
      ¬ ("$code ".toList <+: line_trim seg.1)) :
    preprocess fs a src = some src := by
  rw [preprocess_no_code fs a src hnul (fun seg hs => (hlines seg hs).2.2)]
  congr 1
  conv_rhs => rw [← splitLines_flatMap src]
  apply List.flatMap_congr
  intro seg hs
  obtain ⟨h1, h2, _⟩ := hlines seg hs
  unfold asideRewrite
  rw [if_neg h1, if_neg h2]

/-- Witness of C5: a text with a CRLF line end, directive tokens inside other text, an
empty line and no final newline. -/
theorem preprocess_passthrough_identity_witness :
    NUL ∉ "see [sidenote] here\r\n $code\n\n[/sidenote] x".toList ∧
    preprocess noFiles (arena_fresh 64) "see [sidenote] here\r\n $code\n\n[/sidenote] x".toList
      = some "see [sidenote] here\r\n $code\n\n[/sidenote] x".toList :=
  ⟨by decide, preprocess_passthrough_identity noFiles (arena_fresh 64) _ (by decide) (by decide)⟩

/-- C6: for every NUL-free text without a line whose trimmed content begins with
"$code ", `preprocess` returns the lines of the text in their order, where each line whose
trimmed content is exactly "[sidenote]" has become `<div class="sidenote">` and a newline,
each line whose trimmed content is exactly "[/sidenote]" has become `</div>` and a
newline, and every other line is unchanged; and for "[sidenote]", "Text", "[/sidenote]"
on three lines the result is the open tag, then Text, then the close tag. -/
theorem preprocess_aside_directives (fs : FileSys) (a : Arena) (src : List Char)
    (hnul : NUL ∉ src)
    (hcode : ∀ seg ∈ splitLines src, ¬ ("$code ".toList <+: line_trim seg.1)) :
    preprocess fs a src = some ((splitLines src).flatMap asideRewrite) ∧
    preprocess fs a "[sidenote]\nText\n[/sidenote]".toList
      = some "<div class=\"sidenote\">\nText\n</div>\n".toList := by
  refine ⟨preprocess_no_code fs a src hnul hcode, ?_⟩
  rw [preprocess_no_code fs a _ (by decide) (by decide)]
  decide

/-- Witness of C6: an aside with indented directive lines and a CRLF line end. -/
theorem preprocess_aside_directives_witness :
    NUL ∉ "intro\n  [sidenote]\r\nnote\n[/sidenote] \nend".toList ∧
    preprocess noFiles (arena_fresh 64) "intro\n  [sidenote]\r\nnote\n[/sidenote] \nend".toList
      = some "intro\n<div class=\"sidenote\">\nnote\n</div>\nend".toList :=
  ⟨by decide,
    ((preprocess_aside_directives noFiles (arena_fresh 64) _ (by decide) (by decide)).1).trans
      (by decide)⟩

/-! ## The tokens of a code directive -/

theorem dropWhile_block (p : Char → Bool) (ws r : List Char) (h : ∀ c ∈ ws, p c = true)
    (hr : r = [] ∨ ∃ c t, r = c :: t ∧ p c = false) : List.dropWhile p (ws ++ r) = r := by
  rw [List.dropWhile_append_of_pos h]
  rcases hr with rfl | ⟨c, t, rfl, hc⟩
  · rfl
  · exact List.dropWhile_cons_of_neg (by simp [hc])

theorem takeWhile_block (p : Char → Bool) (tok r : List Char) (h : ∀ c ∈ tok, p c = true)
    (hr : r = [] ∨ ∃ c t, r = c :: t ∧ p c = false) : List.takeWhile p (tok ++ r) = tok := by
  rw [List.takeWhile_append_of_pos h]
  rcases hr with rfl | ⟨c, t, rfl, hc⟩
  · simp
  · rw [List.takeWhile_cons_of_neg (by simp [hc])]
    simp

theorem code_line_tokens_shape (w : Char) (ws1 P tail : List Char)
    (hws1 : ∀ c ∈ ws1, isSpTab c = true)
    (hP0 : P ≠ []) (hP : ∀ c ∈ P, isSpTab c = false) (hPn : NUL ∉ P) (hPl : P.length ≤ 2047)
    (htail : tail = [] ∨ ∃ c t, tail = c :: t ∧ isSpTab c = true) :
    code_line_tokens ("$code".toList ++ (w :: ws1) ++ P ++ tail) =
      some (P,
        match tail.dropWhile isSpTab with
        | [] => []
        | c :: r =>
          cstr ((if (c :: r).length ≥ 2 ∧ c = '[' then
              match memchr (c :: r) ']' with
              | some k => ((c :: r).drop 1).take (k - 1)
              | none => c :: r
            else (c :: r).takeWhile (fun c => !isSpTab c)).take 255)) := by
  have hdrop : ("$code".toList ++ (w :: ws1) ++ P ++ tail).drop CODE_CMD.length
      = ws1 ++ (P ++ tail) := by
    have : "$code".toList ++ (w :: ws1) ++ P ++ tail
        = ("$code".toList ++ [w]) ++ (ws1 ++ (P ++ tail)) := by simp
    rw [this]
    exact List.drop_left' (by simp [CODE_CMD])
  obtain ⟨c0, P', rfl⟩ := List.exists_cons_of_ne_nil hP0
  have hc0 : isSpTab c0 = false := hP c0 (by simp)
  have h1 : (ws1 ++ (c0 :: P' ++ tail)).dropWhile isSpTab = c0 :: P' ++ tail :=
    dropWhile_block isSpTab ws1 _ hws1 (Or.inr ⟨c0, P' ++ tail, rfl, hc0⟩)
  have htail2 : tail = [] ∨ ∃ c t, tail = c :: t ∧ (fun c => !isSpTab c) c = false := by
    rcases htail with h | ⟨c, t, h, hc⟩
    · exact Or.inl h
    · exact Or.inr ⟨c, t, h, by simp [hc]⟩
  have hP2 : ∀ c ∈ c0 :: P', (fun c => !isSpTab c) c = true := by
    intro c hc
    simp [hP c hc]
  have h2 : (c0 :: P' ++ tail).takeWhile (fun c => !isSpTab c) = c0 :: P' :=
    takeWhile_block _ _ _ hP2 htail2
  have h3 : (c0 :: P' ++ tail).dropWhile (fun c => !isSpTab c) = tail :=
    dropWhile_block _ _ _ hP2 htail2
  unfold code_line_tokens
  simp only [hdrop, h1, h2, h3]
  have hne : ¬ ((c0 :: P').length = 0) := by simp
  rw [if_neg hne, List.take_of_length_le hPl, cstr_of_no_nul _ hPn]
  cases tail.dropWhile isSpTab <;> rfl

theorem cstr_take_of_no_nul (s : List Char) (n : Nat) (h : NUL ∉ s) (hl : s.length ≤ n) :
    cstr (s.take n) = s := by
  rw [List.take_of_length_le hl, cstr_of_no_nul s h]

theorem code_line_tokens_snip (w : Char) (ws1 P ws2 S : List Char)
    (hws1 : ∀ c ∈ ws1, isSpTab c = true)
    (hP0 : P ≠ []) (hP : ∀ c ∈ P, isSpTab c = false) (hPn : NUL ∉ P) (hPl : P.length ≤ 2047)
    (hws2a : ws2 ≠ []) (hws2 : ∀ c ∈ ws2, isSpTab c = true)
    (c : Char) (r : List Char) (hS : S = c :: r) (hc : isSpTab c = false) :
    code_line_tokens ("$code".toList ++ (w :: ws1) ++ P ++ (ws2 ++ S)) =
      some (P, cstr ((if S.length ≥ 2 ∧ c = '[' then
              match memchr S ']' with
              | some k => (S.drop 1).take (k - 1)
              | none => S
            else S.takeWhile (fun c => !isSpTab c)).take 255)) := by
  obtain ⟨d, ws2', rfl⟩ := List.exists_cons_of_ne_nil hws2a
  have hd : isSpTab d = true := hws2 d (by simp)
  rw [code_line_tokens_shape w ws1 P (d :: ws2' ++ S) hws1 hP0 hP hPn hPl
    (Or.inr ⟨d, ws2' ++ S, rfl, hd⟩)]
  have h1 : (d :: ws2' ++ S).dropWhile isSpTab = c :: r := by
    rw [dropWhile_block isSpTab (d :: ws2') S hws2 (Or.inr ⟨c, r, hS, hc⟩), hS]
  rw [h1, hS]

/-- Counterexample to C7 as stated: on the directive line "$code foo.c [abc def" the text
after the path starts with "[" but has no "]", so it is not bracket-delimited and its bare
token is "[abc"; yet the snippet name is "[abc def", the whole rest of the line, and
`handle_code_line` emits the snippet of that name. -/
theorem code_line_unclosed_bracket_counterexample :
    code_line_tokens "$code foo.c [abc def".toList
      = some ("foo.c".toList, "[abc def".toList) ∧
    ']' ∉ "[abc def".toList ∧
    ("[abc def".toList).takeWhile (fun c => !isSpTab c) = "[abc".toList ∧
    (handle_code_line
      (fun p => if p = "foo.c".toList then
          FileRead.ok "//snippet [abc\nY\n//endsnippet\n//snippet [abc def\nX\n//endsnippet\n".toList
        else FileRead.open_fails)
      (arena_fresh 1024) "$code foo.c [abc def".toList []).map Prod.snd
      = some "\n```\nX\n\n```\n".toList := by
  decide

/-- C7 (amended): on a directive line `"$code"`, one byte, any spaces and tabs, then `P`,
a non-empty run of at most 2047 bytes other than space and tab (and `NUL`),
`handle_code_line` takes exactly `P` as the file path.  The snippet name is empty when
nothing follows `P`.  When spaces or tabs and then a text `S` follow: if `S` is "[", a name
of at most 255 bytes without "]", "]" and anything, the snippet name is that name; if `S`
begins with a token (a run of at most 255 bytes other than space and tab, ended by a space,
a tab or the end of the line) that does not start with "[", or `S` is the single byte "[",
the snippet name is that token; and if `S` starts with "[", has at least two bytes, at most
255, and no "]", the snippet name is the whole of `S`, spaces and tabs included. -/
theorem code_line_tokens_grammar (w : Char) (ws1 P : List Char)
    (hws1 : ∀ c ∈ ws1, isSpTab c = true)
    (hP0 : P ≠ []) (hP : ∀ c ∈ P, isSpTab c = false) (hPn : NUL ∉ P)
    (hPl : P.length ≤ 2047) :
    code_line_tokens ("$code".toList ++ (w :: ws1) ++ P) = some (P, []) ∧
    ∀ ws2 S : List Char, ws2 ≠ [] → (∀ c ∈ ws2, isSpTab c = true) → NUL ∉ S →
      (∀ nm t : List Char, S = '[' :: nm ++ ']' :: t → ']' ∉ nm → nm.length ≤ 255 →
        code_line_tokens ("$code".toList ++ (w :: ws1) ++ P ++ (ws2 ++ S)) = some (P, nm)) ∧
      (∀ tok t : List Char, S = tok ++ t → tok ≠ [] → (∀ c ∈ tok, isSpTab c = false) →
        (t = [] ∨ ∃ c t', t = c :: t' ∧ isSpTab c = true) →
        (tok.head? ≠ some '[' ∨ S.length < 2) → tok.length ≤ 255 →
        code_line_tokens ("$code".toList ++ (w :: ws1) ++ P ++ (ws2 ++ S)) = some (P, tok)) ∧
      (∀ r : List Char, S = '[' :: r → r ≠ [] → ']' ∉ r → S.length ≤ 255 →
        code_line_tokens ("$code".toList ++ (w :: ws1) ++ P ++ (ws2 ++ S)) = some (P, S)) := by
  constructor
  · have := code_line_tokens_shape w ws1 P [] hws1 hP0 hP hPn hPl (Or.inl rfl)
    simpa using this
  · intro ws2 S hws2a hws2 hSn
    refine ⟨?_, ?_, ?_⟩
    · intro nm t hS hnm hlen
      rw [code_line_tokens_snip w ws1 P ws2 S hws1 hP0 hP hPn hPl hws2a hws2 '['
        (nm ++ ']' :: t) hS (by decide)]
      have hl : S.length ≥ 2 := by rw [hS]; simp; omega
      have hm : memchr S ']' = some (nm.length + 1) := by
        have hne : ¬ ('[' = ']') := by decide
        rw [hS, List.cons_append, memchr, if_neg hne, memchr_append nm t ']' hnm]
        rfl
      have hnn : NUL ∉ nm := fun h => hSn (by rw [hS]; simp [h])
      simp only [hl, hm, and_self, ↓reduceIte, Nat.add_sub_cancel]
      have : (S.drop 1).take nm.length = nm := by
        rw [hS]
        simp
      rw [this, cstr_take_of_no_nul nm 255 hnn hlen]
    · intro tok t hS htok0 htok ht hbr hlen
      obtain ⟨c, r, hcr⟩ := List.exists_cons_of_ne_nil htok0
      have hc : isSpTab c = false := htok c (by rw [hcr]; simp)
      rw [code_line_tokens_snip w ws1 P ws2 S hws1 hP0 hP hPn hPl hws2a hws2 c (r ++ t)
        (by rw [hS, hcr]; rfl) hc]
      have hcond : ¬ (S.length ≥ 2 ∧ c = '[') := by
        rintro ⟨h2, hc2⟩
        rcases hbr with h | h
        · apply h
          rw [hcr, hc2]
          rfl
        · omega
      have htw : S.takeWhile (fun c => !isSpTab c) = tok := by
        rw [hS]
        apply takeWhile_block
        · intro x hx
          simp [htok x hx]
        · rcases ht with h | ⟨x, t', h, hx⟩
          · exact Or.inl h
          · exact Or.inr ⟨x, t', h, by simp [hx]⟩
      have hnn : NUL ∉ tok := fun h => hSn (by rw [hS]; simp [h])
      rw [if_neg hcond, htw, cstr_take_of_no_nul tok 255 hnn hlen]
    · intro r hS hr hnb hlen
      rw [code_line_tokens_snip w ws1 P ws2 S hws1 hP0 hP hPn hPl hws2a hws2 '[' r hS
        (by decide)]
      obtain ⟨x, r', hxr⟩ := List.exists_cons_of_ne_nil hr
      have hl : S.length ≥ 2 := by rw [hS, hxr]; simp
      have hm : memchr S ']' = none := by
        rw [memchr_none, hS]
        intro h
        rcases List.mem_cons.mp h with h | h
        · exact absurd h (by decide)
        · exact hnb h
      simp only [hl, hm, and_self, ↓reduceIte]
      rw [cstr_take_of_no_nul S 255 hSn hlen]

/-- Witness of C7 (amended): the line "$code  src/foo.c [my part] tail". -/
theorem code_line_tokens_grammar_witness :
    code_line_tokens ("$code".toList ++ (' ' :: " ".toList) ++ "src/foo.c".toList
      ++ (" ".toList ++ "[my part] tail".toList)) = some ("src/foo.c".toList, "my part".toList) :=
  ((code_line_tokens_grammar ' ' " ".toList "src/foo.c".toList (by decide) (by decide)
    (by decide) (by decide) (by decide)).2 " ".toList "[my part] tail".toList (by decide)
    (by decide) (by decide)).1 "my part".toList " tail".toList (by decide) (by decide)
    (by decide)

/-! ## Snippets -/

theorem strstr_some (h n : List Char) (k : Nat) (hk : strstr h n = some k) :
    n <+: h.drop k ∧ k + n.length ≤ h.length := by
  induction h generalizing k with
  | nil =>
    unfold strstr at hk
    split at hk
    · rename_i he
      simp only [Option.some.injEq] at hk
      subst hk
      have : n = [] := by simpa using he
      simp [this]
    · simp at hk
  | cons x xs ih =>
    unfold strstr at hk
    split at hk
    · rename_i hp
      simp only [Option.some.injEq] at hk
      subst hk
      have hp2 : n <+: x :: xs := List.isPrefixOf_iff_prefix.mp hp
      exact ⟨by simpa using hp2, by simpa using hp2.length_le⟩
    · cases hj : strstr xs n with
      | none => simp [hj] at hk
      | some j =>
        simp only [hj, Option.map_some', Option.some.injEq] at hk
        subst hk
        obtain ⟨h1, h2⟩ := ih j hj
        exact ⟨by simpa using h1, by simp only [List.length_cons]; omega⟩

theorem strstr_some_occurs (h n : List Char) (k : Nat) (hk : strstr h n = some k) :
    n <:+: h := by
  obtain ⟨h1, _⟩ := strstr_some h n k hk
  exact h1.isInfix.trans (List.drop_suffix k h).isInfix

theorem afterLine_of_strchr (l : List Char) (j : Nat) (h : strchr l '\n' = some j) :
    l.drop (j + 1) = afterLine l := by
  obtain ⟨h1, h2⟩ := memchr_some l '\n' j h
  have hlen : (l.take j).length = j := by
    have : (l.take j ++ '\n' :: l.drop (j + 1)).length = l.length := by rw [← h2]
    simp only [List.length_append, List.length_take, List.length_cons, List.length_drop] at this
    simp only [List.length_take]
    omega
  unfold afterLine
  conv_rhs => rw [h2]
  rw [dropWhile_block (fun c => decide (c ≠ '\n')) (l.take j) _
    (by intro c hc; have : c ≠ '\n' := fun e => h1 (e ▸ hc); simpa using this)
    (Or.inr ⟨'\n', l.drop (j + 1), rfl, by simp⟩)]
  rfl

theorem snippet_loop_total (f pat : List Char) (fuel p : Nat) (hp : p ≤ f.length)
    (h : f.length + 1 ≤ fuel + p) : (snippet_loop f pat fuel p).isSome = true := by
  induction fuel generalizing p with
  | zero => omega
  | succ n ih =>
    unfold snippet_loop
    cases hk : strstr (f.drop p) SNIPPET_S with
    | none => rfl
    | some k =>
      have hk2 := (strstr_some _ _ _ hk).2
      have hS : SNIPPET_S.length = 10 := rfl
      simp only [List.length_drop, hS] at hk2
      simp only
      split
      · cases hj : strchr (f.drop (p + k)) '\n' with
        | none => rfl
        | some j =>
          simp only
          cases he : strstr (f.drop (p + k + j + 1)) SNIPPET_E with
          | none => rfl
          | some e =>
            have he2 := (strstr_some _ _ _ he).2
            have hE : SNIPPET_E.length = 12 := rfl
            simp only [List.length_drop, hE] at he2
            simp only
            split
            · exact ih _ (by omega) (by omega)
            · rfl
      · exact ih _ (by omega) (by omega)

theorem extract_snippet_total (file name : List Char) :
    (extract_snippet file name).isSome = true := by
  unfold extract_snippet
  split
  · rfl
  · exact snippet_loop_total _ _ _ 0 (Nat.zero_le _) (by omega)

theorem snippet_loop_no_pair (f name : List Char) (fuel p : Nat) (hp : p ≤ f.length)
    (h : f.length + 1 ≤ fuel + p) (hpair : noSnippetPair f name) :
    snippet_loop f (SNIPPET_S ++ name) fuel p = some none := by
  induction fuel generalizing p with
  | zero => omega
  | succ n ih =>
    unfold snippet_loop
    cases hk : strstr (f.drop p) SNIPPET_S with
    | none => rfl
    | some k =>
      have hk2 := (strstr_some _ _ _ hk).2
      have hS : SNIPPET_S.length = 10 := rfl
      simp only [List.length_drop, hS] at hk2
      simp only
      split
      · rename_i hcond
        obtain ⟨hanch, hpre⟩ := hcond
        have hno := hpair (p + k) (by omega) hanch (List.isPrefixOf_iff_prefix.mp hpre)
        cases hj : strchr (f.drop (p + k)) '\n' with
        | none => rfl
        | some j =>
          simp only
          cases he : strstr (f.drop (p + k + j + 1)) SNIPPET_E with
          | none => rfl
          | some e =>
            exfalso
            apply hno
            rw [← afterLine_of_strchr _ j hj, List.drop_drop]
            have := strstr_some_occurs _ _ _ he
            exact this
      · exact ih _ (by omega) (by omega)

theorem cstr_length_le (s : List Char) : (cstr s).length ≤ s.length := by
  unfold cstr
  exact (List.takeWhile_prefix _).length_le

theorem code_line_tokens_bounds (s path name : List Char)
    (h : code_line_tokens s = some (path, name)) :
    (NUL ∉ path ∧ path.length ≤ 2047) ∧ (NUL ∉ name ∧ name.length ≤ 255) := by
  unfold code_line_tokens at h
  simp only at h
  split at h
  · simp at h
  · simp only [Option.some.injEq, Prod.mk.injEq] at h
    obtain ⟨h1, h2⟩ := h
    subst h1 h2
    refine ⟨⟨nul_not_mem_cstr _, ?_⟩, ?_⟩
    · exact Nat.le_trans (cstr_length_le _) (by simp [List.length_take])
    · split
      · simp
      · exact ⟨nul_not_mem_cstr _,
          Nat.le_trans (cstr_length_le _) (by simp [List.length_take])⟩

theorem extract_snippet_no_pair (file name : List Char) (hname : name ≠ [])
    (hnul : NUL ∉ name) (hlen : name.length ≤ 255) (hpair : noSnippetPair (cstr file) name) :
    extract_snippet file name = some none := by
  unfold extract_snippet
  rw [cstr_of_no_nul name hnul, if_neg hname]
  have hpat : (SNIPPET_S ++ name).take 511 = SNIPPET_S ++ name := by
    apply List.take_of_length_le
    have hS : SNIPPET_S.length = 10 := rfl
    simp only [List.length_append, hS]
    omega
  simp only [hpat]
  exact snippet_loop_no_pair _ _ _ 0 (Nat.zero_le _) (by omega) hpair

/-! ## The loops return -/

theorem strip_loop_total (fuel : Nat) (p out : List Char) (h : p.length < fuel) :
    (strip_loop fuel p out).isSome = true := by
  induction fuel generalizing p out with
  | zero => omega
  | succ n ih =>
    unfold strip_loop
    cases p with
    | nil => rfl
    | cons c cs =>
      simp only
      cases hk : strchr (c :: cs) '\n' with
      | none => rfl
      | some k =>
        simp only
        apply ih
        simp only [List.length_cons] at h
        simp only [List.drop_succ_cons, List.length_drop]
        omega

theorem handle_code_line_total (fs : FileSys) (a : Arena) (s out : List Char) :
    (handle_code_line fs a s out).isSome = true := by
  unfold handle_code_line
  cases code_line_tokens s with
  | none => rfl
  | some t =>
    obtain ⟨path, snip⟩ := t
    simp only
    cases hr : read_file fs a path true with
    | mk file a1 =>
      cases file with
      | none => rfl
      | some data =>
        simp only
        by_cases hs : snip = []
        · simp only [hs, ne_eq, not_true_eq_false, ↓reduceIte]
          have ht := strip_loop_total ((cstr data).length + 1) (cstr data)
            (out ++ "\n```\n".toList) (by omega)
          obtain ⟨o, ho⟩ := Option.isSome_iff_exists.mp ht
          unfold append_file_stripping_markers
          rw [ho]
          rfl
        · simp only [hs, ne_eq, not_false_eq_true, ↓reduceIte]
          obtain ⟨o, ho⟩ := Option.isSome_iff_exists.mp (extract_snippet_total data snip)
          rw [ho]
          cases o <;> rfl

theorem preprocess_line_total (fs : FileSys) (a : Arena) (line : List Char) (nl : Bool)
    (out : List Char) : (preprocess_line fs a line nl out).isSome = true := by
  unfold preprocess_line
  simp only
  split
  · rfl
  · split
    · rfl
    · split
      · obtain ⟨r, hr⟩ := Option.isSome_iff_exists.mp
          (handle_code_line_total fs a (line_trim line) out)
        rw [hr]
        rfl
      · rfl

theorem foldLines_total (fs : FileSys) (segs : List (List Char × Bool)) (a : Arena)
    (out : List Char) : (foldLines fs segs a out).isSome = true := by
  induction segs generalizing a out with
  | nil => rfl
  | cons seg rest ih =>
    unfold foldLines
    obtain ⟨r, hr⟩ := Option.isSome_iff_exists.mp
      (preprocess_line_total fs a seg.1 seg.2 out)
    rw [hr]
    exact ih _ _

theorem preprocess_total (fs : FileSys) (a : Arena) (src : List Char) :
    (preprocess fs a src).isSome = true := by
  unfold preprocess
  rw [preprocess_loop_eq_foldLines fs _ a _ [] (by omega)]
  simpa using foldLines_total fs _ a []

/-- C8 (the code departs from it): the file whose only start marker line is
"//snippet demo2" has no line equal to "//snippet demo", yet `extract_snippet` returns a
body for the name "demo", the body of the snippet demo2, because the start marker is
compared with `strncmp` over the length of "//snippet demo" only. -/
theorem extract_snippet_start_marker_not_exact :
    (∀ seg ∈ splitLines "//snippet demo2\nint y;\n//endsnippet\n".toList,
      seg.1 ≠ "//snippet demo".toList) ∧
    extract_snippet "//snippet demo2\nint y;\n//endsnippet\n".toList "demo".toList
      = some (some "int y;\n".toList) := by
  decide

/-- C9 (the code departs from it): in the file with the lines "//snippet demo",
"int x; //endsnippet here", "//endsnippet" the start marker line is followed by a line
that begins with "//endsnippet", and the text between them is the line
"int x; //endsnippet here"; yet `extract_snippet` returns nothing for "demo", because on
meeting the "//endsnippet" in the middle of the body line it goes on to search for
another start marker.  For the file "//snippet demo", "int x;", "//endsnippet" it returns
the single line "int x;". -/
theorem extract_snippet_body_with_marker_inside :
    extract_snippet "//snippet demo\nint x; //endsnippet here\n//endsnippet\n".toList
      "demo".toList = some none ∧
    splitLines "//snippet demo\nint x; //endsnippet here\n//endsnippet\n".toList
      = [("//snippet demo".toList, true), ("int x; //endsnippet here".toList, true),
         ("//endsnippet".toList, true)] ∧
    extract_snippet "//snippet demo\nint x;\n//endsnippet\n".toList "demo".toList
      = some (some "int x;\n".toList) := by
  decide

/-- C10: when the trimmed directive line `ts` names the file `path` and the non-empty
snippet `name`, the file is read, and no line-anchored "//snippet " followed by `name`
in it has "//endsnippet" after its line (in particular when there is no such start
marker), then `extract_snippet` returns nothing, `handle_code_line` appends exactly the
fence, "SNIPPET NOT FOUND", an empty line and the closing fence, and the loop of
`preprocess` goes on with the lines after the directive line. -/
theorem missing_snippet_degrades (fs : FileSys) (a : Arena) (ts out path name file : List Char)
    (htok : code_line_tokens ts = some (path, name)) (hname : name ≠ [])
    (hread : (read_file fs a path true).1 = some file)
    (hpair : noSnippetPair (cstr file) name) :
    extract_snippet file name = some none ∧
    handle_code_line fs a ts out =
      some (arena_reset_temp (read_file fs a path true).2,
        out ++ "\n```\nSNIPPET NOT FOUND\n\n```\n".toList) ∧
    (∀ (line rest : List Char) (fuel : Nat), line_trim line = ts → "$code ".toList <+: ts →
      '\n' ∉ line →
      preprocess_loop fs (fuel + 1) a (line ++ '\n' :: rest) out =
        preprocess_loop fs fuel (arena_reset_temp (read_file fs a path true).2) rest
          (out ++ "\n```\nSNIPPET NOT FOUND\n\n```\n".toList ++ ['\n'])) := by
  obtain ⟨_, hnn, hnl⟩ := code_line_tokens_bounds ts path name htok
  have hex := extract_snippet_no_pair file name hname hnn hnl hpair
  have hh : handle_code_line fs a ts out =
      some (arena_reset_temp (read_file fs a path true).2,
        out ++ "\n```\nSNIPPET NOT FOUND\n\n```\n".toList) := by
    unfold handle_code_line
    simp only [htok]
    have hr : read_file fs a path true = (some file, (read_file fs a path true).2) := by
      rw [← hread]
    rw [hr]
    simp only [hname, ne_eq, not_false_eq_true, ↓reduceIte, hex]
    congr 2
    simp
  refine ⟨hex, hh, ?_⟩
  intro line rest fuel hts hcode hline
  have hsplit : strchr (line ++ '\n' :: rest) '\n' = some line.length :=
    memchr_append line rest '\n' hline
  conv_lhs => unfold preprocess_loop
  cases hl : line ++ '\n' :: rest with
  | nil => simp at hl
  | cons c cs =>
    simp only
    rw [← hl, hsplit]
    simp only [List.take_left', List.drop_left']
    have hd : (line ++ '\n' :: rest).drop (line.length + 1) = rest := by
      rw [← List.drop_drop]
      simp
    rw [hd]
    have hline_res : preprocess_line fs a line true out =
        some (arena_reset_temp (read_file fs a path true).2,
          out ++ "\n```\nSNIPPET NOT FOUND\n\n```\n".toList ++ ['\n']) := by
      unfold preprocess_line
      simp only [hts]
      have h1 : ¬ ts = SIDENOTE_S := by
        intro e
        rw [e] at hcode
        exact absurd hcode (by decide)
      have h2 : ¬ ts = SIDENOTE_E := by
        intro e
        rw [e] at hcode
        exact absurd hcode (by decide)
      have h3 : CODE_CMD.isPrefixOf ts = true := List.isPrefixOf_iff_prefix.mpr hcode
      rw [if_neg h1, if_neg h2, if_pos h3, hh]
    rw [hline_res]

/-- Witness of C10: the directive "$code foo.c [demo]" where foo.c has a start marker of
`demo` but no end marker after it. -/
theorem missing_snippet_degrades_witness :
    code_line_tokens "$code foo.c [demo]".toList = some ("foo.c".toList, "demo".toList) ∧
    noSnippetPair
      (cstr "//snippet other\nint x;\n//endsnippet\n//snippet demo\nint y;\n".toList)
      "demo".toList ∧
    (handle_code_line demoFiles (arena_fresh 1024) "$code foo.c [demo]".toList
      "a\n".toList).map Prod.snd
      = some "a\n\n```\nSNIPPET NOT FOUND\n\n```\n".toList :=
  ⟨by decide, by decide,
    (congrArg (Option.map Prod.snd)
      (missing_snippet_degrades demoFiles (arena_fresh 1024) "$code foo.c [demo]".toList
        "a\n".toList "foo.c".toList "demo".toList
        "//snippet other\nint x;\n//endsnippet\n//snippet demo\nint y;\n".toList
        (by decide) (by decide) (by decide) (by decide)).2.1).trans (by decide)⟩

/-! ## Whole-file inclusion -/

theorem linesOf_ne_nil (t : List Char) : linesOf t ≠ [] := by
  cases t with
  | nil => simp [linesOf]
  | cons c cs =>
    unfold linesOf
    split
    · simp
    · split <;> simp

theorem linesOf_no_nl (l : List Char) (h : '\n' ∉ l) : linesOf l = [l] := by
  induction l with
  | nil => rfl
  | cons c cs ih =>
    have hc : ¬ c = '\n' := fun e => h (by simp [e])
    have hcs : '\n' ∉ cs := fun e => h (by simp [e])
    unfold linesOf
    rw [if_neg hc, ih hcs]

theorem linesOf_append (l rest : List Char) (h : '\n' ∉ l) :
    linesOf (l ++ '\n' :: rest) = l :: linesOf rest := by
  induction l with
  | nil => simp [linesOf]
  | cons c cs ih =>
    have hc : ¬ c = '\n' := fun e => h (by simp [e])
    have hcs : '\n' ∉ cs := fun e => h (by simp [e])
    rw [List.cons_append, linesOf, if_neg hc, ih hcs]

theorem joinLines_cons (l : List Char) (ls : List (List Char)) (h : ls ≠ []) :
    joinLines (l :: ls) = l ++ '\n' :: joinLines ls := by
  cases ls with
  | nil => exact absurd rfl h
  | cons l2 ls => rfl

theorem joinLines_linesOf (t : List Char) : joinLines (linesOf t) = t := by
  induction t with
  | nil => rfl
  | cons c cs ih =>
    unfold linesOf
    by_cases hc : c = '\n'
    · rw [if_pos hc, joinLines_cons _ _ (linesOf_ne_nil cs), ih, hc]
      rfl
    · rw [if_neg hc]
      cases hl : linesOf cs with
      | nil => exact absurd hl (linesOf_ne_nil cs)
      | cons l ls =>
        rw [hl] at ih
        simp only
        cases ls with
        | nil =>
          simp only [joinLines] at ih ⊢
          rw [ih]
        | cons l2 ls =>
          simp only [joinLines] at ih ⊢
          rw [← ih]
          rfl

theorem mem_linesOf_no_nl (t l : List Char) (h : l ∈ linesOf t) : '\n' ∉ l := by
  induction t generalizing l with
  | nil =>
    simp only [linesOf, List.mem_singleton] at h
    subst h
    simp
  | cons c cs ih =>
    unfold linesOf at h
    by_cases hc : c = '\n'
    · rw [if_pos hc] at h
      rcases List.mem_cons.mp h with h | h
      · subst h
        simp
      · exact ih l h
    · rw [if_neg hc] at h
      cases hl : linesOf cs with
      | nil => exact absurd hl (linesOf_ne_nil cs)
      | cons l1 ls =>
        rw [hl] at h ih
        simp only at h
        rcases List.mem_cons.mp h with h | h
        · subst h
          have h1 := ih l1 (by simp)
          intro hm
          rcases List.mem_cons.mp hm with e | e
          · exact hc e.symm
          · exact h1 e
        · exact ih l (by simp [h])

theorem linesOf_joinLines (ls : List (List Char)) (hne : ls ≠ [])
    (h : ∀ l ∈ ls, '\n' ∉ l) : linesOf (joinLines ls) = ls := by
  induction ls with
  | nil => exact absurd rfl hne
  | cons l rest ih =>
    cases rest with
    | nil =>
      simp only [joinLines]
      exact linesOf_no_nl l (h l (by simp))
    | cons l2 rest2 =>
      rw [joinLines_cons _ _ (by simp), linesOf_append _ _ (h l (by simp)),
        ih (by simp) (fun x hx => h x (by simp [hx]))]

theorem count_nl_linesOf (t : List Char) : t.count '\n' + 1 = (linesOf t).length := by
  induction t with
  | nil => rfl
  | cons c cs ih =>
    unfold linesOf
    by_cases hc : c = '\n'
    · rw [if_pos hc, hc]
      simp [ih]
    · rw [if_neg hc]
      have hc2 : ¬ (c == '\n') = true := by simpa using hc
      rw [List.count_cons, if_neg hc2]
      cases hl : linesOf cs with
      | nil => exact absurd hl (linesOf_ne_nil cs)
      | cons l ls =>
        rw [hl] at ih
        simpa using ih

theorem marker_test_iff (S line : List Char) :
    (line.length ≥ S.length ∧ line.take S.length = S) ↔ S <+: line := by
  constructor
  · rintro ⟨_, h⟩
    rw [List.prefix_iff_eq_take]
    exact h.symm
  · intro h
    exact ⟨h.length_le, (List.prefix_iff_eq_take.mp h).symm⟩

theorem strip_step_eq (line : List Char) :
    (if ¬ (line.length ≥ SNIPPET_S.length ∧ line.take SNIPPET_S.length = SNIPPET_S) ∧
        ¬ (line.length ≥ SNIPPET_E.length ∧ line.take SNIPPET_E.length = SNIPPET_E)
      then line else []) = stripMarkerLine line := by
  have a1 := marker_test_iff SNIPPET_S line
  have a2 := marker_test_iff SNIPPET_E line
  have e1 : SNIPPET_S = "//snippet ".toList := rfl
  have e2 : SNIPPET_E = "//endsnippet".toList := rfl
  unfold stripMarkerLine
  by_cases h : "//snippet ".toList <+: line ∨ "//endsnippet".toList <+: line
  · rw [if_pos h, if_neg]
    rintro ⟨n1, n2⟩
    rcases h with h | h
    · exact n1 (a1.mpr (e1 ▸ h))
    · exact n2 (a2.mpr (e2 ▸ h))
  · rw [if_neg h, if_pos]
    exact ⟨fun n1 => h (Or.inl (e1 ▸ a1.mp n1)), fun n2 => h (Or.inr (e2 ▸ a2.mp n2))⟩

theorem strip_loop_eq (fuel : Nat) (p out : List Char) (h : p.length < fuel) :
    strip_loop fuel p out = some (out ++ joinLines ((linesOf p).map stripMarkerLine)) := by
  induction fuel generalizing p out with
  | zero => omega
  | succ n ih =>
    unfold strip_loop
    cases p with
    | nil =>
      have : stripMarkerLine [] = [] := by decide
      simp [linesOf, joinLines, this]
    | cons c cs =>
      simp only
      cases hk : strchr (c :: cs) '\n' with
      | none =>
        have hno : '\n' ∉ c :: cs := (memchr_none _ _).mp hk
        rw [linesOf_no_nl _ hno]
        simp only [List.map_cons, List.map_nil, joinLines, List.take_length]
        rw [← strip_step_eq (c :: cs)]
        split <;> simp
      | some k =>
        obtain ⟨h1, h2⟩ := memchr_some _ _ _ hk
        have hlen : ((c :: cs).take k).length = k := by
          have : ((c :: cs).take k ++ '\n' :: (c :: cs).drop (k + 1)).length
              = (c :: cs).length := by rw [← h2]
          simp only [List.length_append, List.length_take, List.length_cons,
            List.length_drop] at this
          simp only [List.length_take, List.length_cons]
          omega
        have hs : linesOf (c :: cs) = (c :: cs).take k :: linesOf ((c :: cs).drop (k + 1)) := by
          conv_lhs => rw [h2]
          exact linesOf_append _ _ h1
        rw [hs]
        simp only [List.map_cons]
        rw [joinLines_cons _ _ (by simpa using linesOf_ne_nil _)]
        rw [ih _ _ (by
          simp only [List.length_cons] at h
          simp only [List.drop_succ_cons, List.length_drop]
          omega)]
        rw [← strip_step_eq ((c :: cs).take k), hlen]
        split <;> simp

theorem stripMarkerLine_not_marker (l : List Char) :
    ¬ ("//snippet ".toList <+: stripMarkerLine l) ∧
    ¬ ("//endsnippet".toList <+: stripMarkerLine l) := by
  unfold stripMarkerLine
  split
  · constructor <;> decide
  · rename_i h
    exact ⟨fun h1 => h (Or.inl h1), fun h2 => h (Or.inr h2)⟩

theorem stripMarkerLine_no_nl (l : List Char) (h : '\n' ∉ l) : '\n' ∉ stripMarkerLine l := by
  unfold stripMarkerLine
  split
  · simp
  · exact h

/-- C11: for every NUL-free file text, `append_file_stripping_markers` appends a text `r`
whose lines are those of the file, in order, with each line that begins with "//snippet "
or with "//endsnippet" made empty and every other line kept; `r` has exactly as many
newlines as the file, no line of `r` begins with a snippet marker, and a file without
marker lines is appended unchanged. -/
theorem append_file_stripping_markers_lines (out file : List Char) (hnul : NUL ∉ file) :
    ∃ r, append_file_stripping_markers out file = some (out ++ r) ∧
      linesOf r = (linesOf file).map stripMarkerLine ∧
      r.count '\n' = file.count '\n' ∧
      (∀ l ∈ linesOf r,
        ¬ ("//snippet ".toList <+: l) ∧ ¬ ("//endsnippet".toList <+: l)) ∧
      ((∀ l ∈ linesOf file,
        ¬ ("//snippet ".toList <+: l) ∧ ¬ ("//endsnippet".toList <+: l)) → r = file) := by
  have hlines : linesOf (joinLines ((linesOf file).map stripMarkerLine))
      = (linesOf file).map stripMarkerLine := by
    apply linesOf_joinLines
    · simpa using linesOf_ne_nil file
    · intro l hl
      obtain ⟨l0, hl0, rfl⟩ := List.mem_map.mp hl
      exact stripMarkerLine_no_nl l0 (mem_linesOf_no_nl file l0 hl0)
  refine ⟨joinLines ((linesOf file).map stripMarkerLine), ?_, hlines, ?_, ?_, ?_⟩
  · unfold append_file_stripping_markers
    rw [cstr_of_no_nul file hnul]
    exact strip_loop_eq _ _ _ (by omega)
  · have h1 := count_nl_linesOf (joinLines ((linesOf file).map stripMarkerLine))
    have h2 := count_nl_linesOf file
    rw [hlines, List.length_map] at h1
    omega
  · intro l hl
    rw [hlines] at hl
    obtain ⟨l0, _, rfl⟩ := List.mem_map.mp hl
    exact stripMarkerLine_not_marker l0
  · intro hno
    have : (linesOf file).map stripMarkerLine = linesOf file := by
      conv_rhs => rw [← List.map_id (linesOf file)]
      apply List.map_congr_left
      intro l hl
      obtain ⟨h1, h2⟩ := hno l hl
      unfold stripMarkerLine
      rw [if_neg (by rintro (h | h); exact h1 h; exact h2 h)]
      rfl
    rw [this, joinLines_linesOf]

/-- Witness of C11: a file with a snippet between two marker lines and no final newline. -/
theorem append_file_stripping_markers_lines_witness :
    NUL ∉ "a\n//snippet demo\nint x;\n//endsnippet\nb".toList ∧
    append_file_stripping_markers "> ".toList
      "a\n//snippet demo\nint x;\n//endsnippet\nb".toList
      = some "> a\n\nint x;\n\nb".toList := by
  refine ⟨by decide, ?_⟩
  obtain ⟨r, h1, h2, _⟩ := append_file_stripping_markers_lines "> ".toList
    "a\n//snippet demo\nint x;\n//endsnippet\nb".toList (by decide)
  have hr : r = joinLines (linesOf r) := (joinLines_linesOf r).symm
  rw [h2] at hr
  rw [h1, hr]
  decide

/-! ## Include files that cannot be read -/

theorem handle_code_line_unreadable (fs : FileSys) (a : Arena) (ts out path name : List Char)
    (htok : code_line_tokens ts = some (path, name))
    (hread : (read_file fs a path true).1 = none) :
    handle_code_line fs a ts out =
      some ((read_file fs a path true).2,
        out ++ "`[Code file not found: ".toList ++ path ++ "]`".toList) := by
  unfold handle_code_line
  simp only [htok]
  have hr : read_file fs a path true = (none, (read_file fs a path true).2) := by
    rw [← hread]
  rw [hr]

theorem read_file_open_fails (fs : FileSys) (a : Arena) (path : List Char) (temp : Bool)
    (h : fs path = FileRead.open_fails) : read_file fs a path temp = (none, a) := by
  unfold read_file
  rw [h]

/-- C12 (the code departs from it): the document with the lines "$code d" and "$code f",
where reading `d` fails after the temporary block for it was allocated and `f` is a file of
24 bytes, in an arena with 64 free bytes.  The first line is replaced by the text naming
`d` as not found and a newline, as the claim says; but the second line, which alone is
replaced by the fenced content of `f`, now also yields the not-found text, because the
failed read has left 48 bytes of the temporary region allocated.  For "$code missing.c"
the output names missing.c. -/
theorem missing_file_changes_following_line :
    preprocess leakFiles arena_nearly_full "$code d\n$code f\n".toList
      = some "`[Code file not found: d]`\n`[Code file not found: f]`\n".toList ∧
    preprocess leakFiles arena_nearly_full "$code f\n".toList
      = some "\n```\nstatic int answer = 30;\n\n```\n\n".toList ∧
    preprocess leakFiles arena_nearly_full "$code missing.c".toList
      = some "`[Code file not found: missing.c]`\n".toList := by
  decide

/-- C13 (the code departs from it): in an arena with 64 free bytes and an empty temporary
region, the directive "$code d", for which the read fails after the temporary block was
allocated, makes `handle_code_line` return with `temp_p = cap - 48`: the temporary region
is not reset on the path that reports the file as not found.  With the file `f`, which is
read, the same call returns with `temp_p = cap`; `perm_p` is unchanged in both. -/
theorem handle_code_line_keeps_temp_after_failed_read :
    (handle_code_line leakFiles arena_nearly_full "$code d".toList []).map
        (fun r => (r.1.perm_p, r.1.temp_p, r.1.cap))
      = some (8388544, 8388608 - 48, 8388608) ∧
    (handle_code_line leakFiles arena_nearly_full "$code f".toList []).map
        (fun r => (r.1.perm_p, r.1.temp_p, r.1.cap))
      = some (8388544, 8388608, 8388608) := by
  decide

/-! ## Link post-processing -/

theorem stripMdQuote_hit (rest : List Char) :
    stripMdQuote ('.' :: 'm' :: 'd' :: '"' :: rest) = '"' :: stripMdQuote rest := by
  rw [stripMdQuote]

theorem stripMdQuote_miss (c : Char) (cs : List Char) (h : ¬ (".md\"".toList <+: c :: cs)) :
    stripMdQuote (c :: cs) = c :: stripMdQuote cs := by
  rw [stripMdQuote]
  intro rest hc hcs
  apply h
  subst hc hcs
  exact ⟨rest, rfl⟩

theorem needle_prefix_shape (t : List Char) (h : ".md\"".toList <+: t) :
    t = '.' :: 'm' :: 'd' :: '"' :: t.drop 4 := by
  obtain ⟨rest, hrest⟩ := h
  rw [← hrest]
  rfl

theorem strstr_cons_miss (c : Char) (cs n : List Char) (h : ¬ (n <+: c :: cs)) :
    strstr (c :: cs) n = (strstr cs n).map (fun k => k + 1) := by
  have : ¬ (n.isPrefixOf (c :: cs) = true) := by
    rw [List.isPrefixOf_iff_prefix]
    exact h
  rw [strstr, if_neg this]

theorem strstr_cons_hit (c : Char) (cs n : List Char) (h : n <+: c :: cs) :
    strstr (c :: cs) n = some 0 := by
  rw [strstr, if_pos (List.isPrefixOf_iff_prefix.mpr h)]

theorem stripMdQuote_none (t : List Char) (h : strstr t ".md\"".toList = none) :
    stripMdQuote t = t := by
  induction t with
  | nil => rfl
  | cons c cs ih =>
    by_cases hp : ".md\"".toList <+: c :: cs
    · rw [strstr_cons_hit c cs _ hp] at h
      simp at h
    · rw [strstr_cons_miss c cs _ hp] at h
      have h2 : strstr cs ".md\"".toList = none := by
        cases hs : strstr cs ".md\"".toList with
        | none => rfl
        | some j =>
          rw [hs] at h
          exact absurd h (by simp)
      rw [stripMdQuote_miss c cs hp, ih h2]

theorem stripMdQuote_some (t : List Char) (k : Nat) (h : strstr t ".md\"".toList = some k) :
    stripMdQuote t = t.take k ++ '"' :: stripMdQuote (t.drop (k + 4)) := by
  induction t generalizing k with
  | nil => simp [strstr] at h
  | cons c cs ih =>
    by_cases hp : ".md\"".toList <+: c :: cs
    · rw [strstr_cons_hit c cs _ hp] at h
      simp only [Option.some.injEq] at h
      subst h
      conv_lhs => rw [needle_prefix_shape _ hp, stripMdQuote_hit]
      rfl
    · rw [strstr_cons_miss c cs _ hp] at h
      cases hs : strstr cs ".md\"".toList with
      | none =>
        rw [hs] at h
        exact absurd h (by simp)
      | some j =>
        rw [hs] at h
        simp only [Option.map_some', Option.some.injEq] at h
        subst h
        rw [stripMdQuote_miss c cs hp, ih j hs]
        rfl

theorem strip_md_loop_eq (fuel : Nat) (h : List Char) (p : Nat) (hp : p ≤ h.length)
    (hf : h.length - p < fuel) :
    strip_md_loop fuel h p = some (h.take p ++ stripMdQuote (h.drop p)) := by
  induction fuel generalizing h p with
  | zero => omega
  | succ n ih =>
    unfold strip_md_loop
    cases hk : strstr (h.drop p) ".md\"".toList with
    | none =>
      simp only
      rw [stripMdQuote_none _ hk, List.take_append_drop]
    | some k =>
      simp only
      obtain ⟨hpre, hlen⟩ := strstr_some _ _ _ hk
      have hN : (".md\"".toList).length = 4 := rfl
      simp only [List.length_drop, hN] at hlen
      have htake : (h.take (p + k)).length = p + k := by
        rw [List.length_take]
        omega
      rw [ih _ _ (by simp only [List.length_append, htake, List.length_drop]; omega)
        (by simp only [List.length_append, htake, List.length_drop]; omega)]
      rw [stripMdQuote_some _ k hk]
      have e1 : (h.take (p + k) ++ h.drop (p + k + 3)).take (p + k) = h.take (p + k) := by
        rw [List.take_left' htake]
      have e2 : (h.take (p + k) ++ h.drop (p + k + 3)).drop (p + k) = h.drop (p + k + 3) := by
        rw [List.drop_left' htake]
      have e3 : h.drop (p + k + 3) = '"' :: h.drop (p + k + 4) := by
        have hs := needle_prefix_shape _ hpre
        rw [List.drop_drop] at hs
        have : h.drop (p + k + 3) = (h.drop (p + k)).drop 3 := by
          rw [List.drop_drop]
        rw [this, hs]
        simp only [List.drop_succ_cons, List.drop_zero, List.drop_drop]
      have e4 : ¬ (".md\"".toList <+: '"' :: h.drop (p + k + 4)) := by
        rintro ⟨r, hr⟩
        simp at hr
      rw [e1, e2, e3, stripMdQuote_miss _ _ e4]
      have e5 : h.take p ++ (h.drop p).take k = h.take (p + k) := by
        rw [List.take_add]
      have e6 : (h.drop p).drop (k + 4) = h.drop (p + k + 4) := by
        rw [List.drop_drop]
        rfl
      rw [e6, ← e5, List.append_assoc]

/-! ## Searching a text -/

theorem strstr_none_of_absent (h n : List Char) (hn : ¬ (n <:+: h)) : strstr h n = none := by
  cases hs : strstr h n with
  | none => rfl
  | some k => exact absurd (strstr_some_occurs h n k hs) hn

theorem strstr_eq_some_first (h n : List Char) (k : Nat) (hk : n <+: h.drop k)
    (hle : k ≤ h.length) (hfirst : ∀ j, j < k → ¬ (n <+: h.drop j)) : strstr h n = some k := by
  induction h generalizing k with
  | nil =>
    have hk0 : k = 0 := by simpa using hle
    subst hk0
    have hn : n = [] := by simpa using hk
    subst hn
    rfl
  | cons c cs ih =>
    cases k with
    | zero => exact strstr_cons_hit c cs n (by simpa using hk)
    | succ k =>
      have h0 : ¬ (n <+: c :: cs) := by simpa using hfirst 0 (by omega)
      rw [strstr_cons_miss c cs n h0, ih k (by simpa using hk)
        (by simpa using hle) (fun j hj => by simpa using hfirst (j + 1) (by omega))]
      rfl

theorem strstr_append_first (a n b : List Char)
    (hfirst : ∀ j, j < a.length → ¬ (n <+: (a ++ n ++ b).drop j)) :
    strstr (a ++ n ++ b) n = some a.length := by
  apply strstr_eq_some_first
  · rw [List.append_assoc, List.drop_left]
    exact List.prefix_append n b
  · simp only [List.length_append]
    omega
  · exact hfirst

/-- C15: for every NUL-free text, `postprocess_links_strip_md` returns, and what it leaves
is the text with each `.md"` met from left to right replaced by `"` and all other bytes
kept in order (`stripMdQuote`): a text without `.md"` stays as it is, and a text whose
first `.md"` stands after `a` and before `b` becomes `a`, then `"`, then `b` rewritten in
the same way; so `<a href="page.md">` becomes `<a href="page">`. -/
theorem postprocess_links_strip_md_rewrites (html : List Char) (hnul : NUL ∉ html) :
    postprocess_links_strip_md html = some (stripMdQuote html) ∧
    (¬ (".md\"".toList <:+: html) → stripMdQuote html = html) ∧
    (∀ a b : List Char, html = a ++ ".md\"".toList ++ b →
      (∀ j, j < a.length → ¬ (".md\"".toList <+: html.drop j)) →
      stripMdQuote html = a ++ '"' :: stripMdQuote b) ∧
    postprocess_links_strip_md "<a href=\"page.md\">".toList
      = some "<a href=\"page\">".toList := by
  refine ⟨?_, ?_, ?_, by decide⟩
  · unfold postprocess_links_strip_md
    rw [cstr_of_no_nul html hnul, strip_md_loop_eq _ html 0 (Nat.zero_le _) (by omega)]
    rfl
  · intro hno
    exact stripMdQuote_none html (strstr_none_of_absent _ _ hno)
  · intro a b hab hfirst
    have hs : strstr html ".md\"".toList = some a.length := by
      rw [hab]
      apply strstr_append_first
      rw [← hab]
      exact hfirst
    rw [stripMdQuote_some html a.length hs]
    have e1 : html.take a.length = a := by
      rw [hab, List.append_assoc, List.take_left]
    have e2 : html.drop (a.length + 4) = b := by
      have hl : (a ++ ".md\"".toList).length = a.length + 4 := by simp
      rw [hab, List.drop_left' hl]
    rw [e1, e2]

/-- Witness of C15: two links, the second to a file named `x.md.md`, where rewriting the
one `.md"` of the text leaves `x.md"` behind. -/
theorem postprocess_links_strip_md_rewrites_witness :
    NUL ∉ "<a href=\"a.md\">A</a><a href=\"b/x.md.md\">X</a>".toList ∧
    postprocess_links_strip_md "<a href=\"a.md\">A</a><a href=\"b/x.md.md\">X</a>".toList
      = some "<a href=\"a\">A</a><a href=\"b/x.md\">X</a>".toList :=
  ⟨by decide,
    ((postprocess_links_strip_md_rewrites _ (by decide)).1).trans (by decide)⟩

/-! ## Output wrapper -/

theorem write_all_ok (ws : List WriteRes) (file buf f1 : List Char) (ws1 : List WriteRes)
    (h : write_all ws file buf = some (0, f1, ws1)) : f1 = file ++ buf := by
  induction ws generalizing file buf with
  | nil =>
    cases buf with
    | nil =>
      simp only [write_all, Option.some.injEq, Prod.mk.injEq, true_and] at h
      simp [h.1]
    | cons b bs => simp [write_all] at h
  | cons w ws ih =>
    cases buf with
    | nil =>
      simp only [write_all, Option.some.injEq, Prod.mk.injEq, true_and] at h
      simp [h.1]
    | cons b bs =>
      cases w with
      | eintr =>
        rw [write_all] at h
        exact ih _ _ h
      | error => simp [write_all] at h
      | wrote k =>
        rw [write_all] at h
        rw [ih _ _ h, List.append_assoc, List.take_append_drop]

theorem write_seq_ok (ws : List WriteRes) (file : List Char) (bufs : List (List Char))
    (out : List Char) (h : write_seq ws file bufs = some (0, out)) :
    out = file ++ bufs.flatten := by
  induction bufs generalizing ws file with
  | nil =>
    simp only [write_seq, Option.some.injEq, Prod.mk.injEq, true_and] at h
    simp [h]
  | cons buf rest ih =>
    rw [write_seq] at h
    cases hw : write_all ws file buf with
    | none => simp [hw] at h
    | some r =>
      obtain ⟨rc, f1, ws1⟩ := r
      simp only [hw] at h
      by_cases hrc : rc = 0
      · subst hrc
        simp only [ne_eq, not_true_eq_false, ↓reduceIte] at h
        rw [ih _ _ h, write_all_ok _ _ _ _ _ hw]
        simp
      · simp [hrc] at h

theorem write_seq_returns (n m : Nat) (file : List Char) (bufs : List (List Char))
    (hn : ∀ b ∈ bufs, b.length ≤ n) (hm : bufs.length ≤ m) :
    write_seq (List.replicate m (WriteRes.wrote n)) file bufs = some (0, file ++ bufs.flatten) := by
  induction bufs generalizing m file with
  | nil => simp [write_seq]
  | cons buf rest ih =>
    rw [write_seq]
    cases buf with
    | nil =>
      simp only [write_all]
      rw [ih m file (fun b hb => hn b (by simp [hb])) (by simp at hm; omega)]
      simp
    | cons b bs =>
      cases m with
      | zero => simp at hm
      | succ m =>
        have hl : (b :: bs).length ≤ n := hn _ (by simp)
        rw [List.replicate_succ, write_all, List.take_of_length_le hl,
          List.drop_of_length_le hl]
        cases hr : List.replicate m (WriteRes.wrote n) with
        | nil =>
          simp only [write_all, ne_eq, not_true_eq_false, ↓reduceIte]
          rw [← hr, ih m _ (fun b hb => hn b (by simp [hb])) (by simp at hm; omega)]
          simp
        | cons w ws =>
          simp only [write_all, ne_eq, not_true_eq_false, ↓reduceIte]
          rw [← hr, ih m _ (fun b hb => hn b (by simp [hb])) (by simp at hm; omega)]
          simp

theorem write_output_wrapped_ok (open_ok : Bool) (ws : List WriteRes)
    (html : List Char) (layout : Option (List Char)) (bytes : List Char)
    (h : write_output_wrapped open_ok ws html layout = some (0, bytes)) :
    bytes =
      match layout with
      | none => cstr html
      | some lay =>
        match strstr (cstr lay) BODY_PH with
        | some ip => (cstr lay).take ip ++ cstr html ++ (cstr lay).drop (ip + BODY_PH.length)
        | none => cstr lay ++ cstr html := by
  unfold write_output_wrapped at h
  cases open_ok with
  | false => simp at h
  | true =>
    simp only [Bool.true_eq_false, ↓reduceIte] at h
    cases layout with
    | none => simpa using write_seq_ok _ _ _ _ h
    | some lay =>
      simp only at h ⊢
      cases hs : strstr (cstr lay) BODY_PH with
      | none =>
        rw [hs] at h
        simpa using write_seq_ok _ _ _ _ h
      | some ip =>
        rw [hs] at h
        simpa using write_seq_ok _ _ _ _ h

/-- C14: for every body text `html` and optional layout (NUL-free texts), whenever
`write_output_wrapped` returns 0 the bytes in the file are: `html` when the layout is
absent; `pre ++ html ++ suf` when the layout is `pre`, the placeholder, `suf` and no
placeholder starts before the end of `pre` (later placeholders stay in `suf`); and the
layout followed by `html` when the layout does not contain the placeholder.  When `open`
succeeds and each `write` takes all the bytes offered, the function does return 0. -/
theorem write_output_wrapped_bytes (open_ok : Bool) (ws : List WriteRes) (html : List Char)
    (hh : NUL ∉ html) :
    (∀ bytes, write_output_wrapped open_ok ws html none = some (0, bytes) → bytes = html) ∧
    (∀ pre suf bytes : List Char, NUL ∉ pre → NUL ∉ suf →
      (∀ j, j < pre.length → ¬ (BODY_PH <+: (pre ++ BODY_PH ++ suf).drop j)) →
      write_output_wrapped open_ok ws html (some (pre ++ BODY_PH ++ suf)) = some (0, bytes) →
      bytes = pre ++ html ++ suf) ∧
    (∀ lay bytes : List Char, NUL ∉ lay → ¬ (BODY_PH <:+: lay) →
      write_output_wrapped open_ok ws html (some lay) = some (0, bytes) →
      bytes = lay ++ html) ∧
    (∀ (layout : Option (List Char)) (n : Nat), html.length ≤ n →
      (∀ lay, layout = some lay → lay.length ≤ n) →
      ∃ bytes, write_output_wrapped true (List.replicate 3 (WriteRes.wrote n)) html layout
        = some (0, bytes)) := by
  have hc := cstr_of_no_nul html hh
  refine ⟨?_, ?_, ?_, ?_⟩
  · intro bytes h
    have := write_output_wrapped_ok _ _ _ _ _ h
    simpa [hc] using this
  · intro pre suf bytes hpre hsuf hfirst h
    have hlay : NUL ∉ pre ++ BODY_PH ++ suf := by
      intro hm
      rcases List.mem_append.mp hm with hm | hm
      · rcases List.mem_append.mp hm with hm | hm
        · exact hpre hm
        · exact absurd hm (by decide)
      · exact hsuf hm
    have := write_output_wrapped_ok _ _ _ _ _ h
    simp only [cstr_of_no_nul _ hlay, strstr_append_first pre BODY_PH suf hfirst, hc] at this
    rw [this]
    have e1 : (pre ++ BODY_PH ++ suf).take pre.length = pre := by
      rw [List.append_assoc, List.take_left]
    have e2 : (pre ++ BODY_PH ++ suf).drop (pre.length + BODY_PH.length) = suf := by
      rw [List.drop_left' (by simp)]
    rw [e1, e2]
  · intro lay bytes hlay hno h
    have := write_output_wrapped_ok _ _ _ _ _ h
    simp only [cstr_of_no_nul _ hlay, strstr_none_of_absent _ _ hno, hc] at this
    exact this
  · intro layout n hn hlay
    unfold write_output_wrapped
    simp only [Bool.true_eq_false, ↓reduceIte, hc]
    cases layout with
    | none =>
      exact ⟨_, write_seq_returns n 3 [] [html] (by simpa using hn) (by simp)⟩
    | some lay =>
      have hl : (cstr lay).length ≤ n := Nat.le_trans (cstr_length_le lay) (hlay lay rfl)
      simp only
      cases hs : strstr (cstr lay) BODY_PH with
      | none =>
        exact ⟨_, write_seq_returns n 3 [] [cstr lay, html] (by
          intro b hb
          simp only [List.mem_cons, List.mem_singleton, List.not_mem_nil, or_false] at hb
          rcases hb with rfl | rfl
          · exact hl
          · exact hn) (by simp)⟩
      | some ip =>
        exact ⟨_, write_seq_returns n 3 []
          [(cstr lay).take ip, html, (cstr lay).drop (ip + BODY_PH.length)] (by
          intro b hb
          simp only [List.mem_cons, List.mem_singleton, List.not_mem_nil, or_false] at hb
          rcases hb with rfl | rfl | rfl
          · exact Nat.le_trans (by simp [List.length_take]) hl
          · exact hn
          · exact Nat.le_trans (by simp [List.length_drop]) hl) (by simp)⟩

/-- Witness of C14: a layout with two placeholders, written with an interrupted and a
short `write`. -/
theorem write_output_wrapped_bytes_witness :
    NUL ∉ "<p>hi</p>".toList ∧
    write_output_wrapped true
        [WriteRes.wrote 3, WriteRes.eintr, WriteRes.wrote 9, WriteRes.wrote 9,
          WriteRes.wrote 99] "<p>hi</p>".toList
        (some ("<html>".toList ++ BODY_PH ++ "</html>\x7b\x7bBody\x7d\x7d".toList))
      = some (0, "<html><p>hi</p></html>\x7b\x7bBody\x7d\x7d".toList) ∧
    "<html><p>hi</p></html>\x7b\x7bBody\x7d\x7d".toList
      = "<html>".toList ++ "<p>hi</p>".toList ++ "</html>\x7b\x7bBody\x7d\x7d".toList :=
  ⟨by decide, by decide,
    (write_output_wrapped_bytes true
      [WriteRes.wrote 3, WriteRes.eintr, WriteRes.wrote 9, WriteRes.wrote 9, WriteRes.wrote 99]
      "<p>hi</p>".toList (by decide)).2.1 "<html>".toList
      "</html>\x7b\x7bBody\x7d\x7d".toList _ (by decide) (by decide) (by decide) (by decide)⟩

/-! ## Path mapping -/

theorem strlen_of_no_nul (s : List Char) (h : NUL ∉ s) : strlen s = s.length := by
  unfold strlen
  rw [cstr_of_no_nul s h]

theorem has_ext_md_iff (name : List Char) (hn : NUL ∉ name) :
    has_ext name ".md".toList = true ↔ ".md".toList <:+ name := by
  have h3 : strlen ".md".toList = 3 := by decide
  have hc : cstr ".md".toList = ".md".toList := by decide
  unfold has_ext
  rw [strlen_of_no_nul name hn, cstr_of_no_nul name hn, h3, hc]
  simp only [Bool.and_eq_true, decide_eq_true_eq]
  constructor
  · rintro ⟨_, h⟩
    rw [← h]
    exact List.drop_suffix _ _
  · intro h
    have hl := h.length_le
    have h3l : (".md".toList).length = 3 := rfl
    rw [h3l] at hl
    refine ⟨hl, ?_⟩
    have := List.suffix_iff_eq_drop.mp h
    simpa using this.symm

theorem md_to_html_ext_md (stem : List Char) (hn : NUL ∉ stem) :
    md_to_html_ext (stem ++ ".md".toList) = stem ++ ".html".toList := by
  have hn2 : NUL ∉ stem ++ ".md".toList := by
    intro h
    rcases List.mem_append.mp h with h | h
    · exact hn h
    · exact absurd h (by decide)
  unfold md_to_html_ext
  rw [strlen_of_no_nul _ hn2, cstr_of_no_nul _ hn2]
  have hl : (stem ++ ".md".toList).length - 3 = stem.length := by simp
  have hcond : (stem ++ ".md".toList).length ≥ 3 ∧
      (stem ++ ".md".toList).drop ((stem ++ ".md".toList).length - 3) = ".md".toList :=
    ⟨by simp, by rw [hl, List.drop_left]⟩
  rw [if_pos hcond, hl, List.take_left]

theorem md_to_html_ext_other (p : List Char) (hn : NUL ∉ p) (h : ¬ (".md".toList <:+ p)) :
    md_to_html_ext p = p := by
  unfold md_to_html_ext
  rw [strlen_of_no_nul _ hn, cstr_of_no_nul _ hn]
  rw [if_neg]
  rintro ⟨_, h2⟩
  apply h
  rw [← h2]
  exact List.drop_suffix _ _

theorem md_suffix_of_rel (dir name : List Char)
    (hdir : dir = [] ∨ dir.getLast? = some '/') (h : ".md".toList <:+ dir ++ name) :
    ".md".toList <:+ name := by
  obtain ⟨t, ht⟩ := h
  rcases List.append_eq_append_iff.mp ht with ⟨a, h1, h2⟩ | ⟨a, h1, h2⟩
  · cases a with
    | nil =>
      simp only [List.nil_append] at h2
      rw [← h2]
    | cons c cs =>
      exfalso
      rcases hdir with hd | hd
      · rw [hd] at h1
        simp at h1
      · rw [h1, List.getLast?_append_of_ne_nil _ (by simp)] at hd
        have hmem : '/' ∈ c :: cs := List.mem_of_getLast?_eq_some hd
        have : '/' ∈ ".md".toList := by
          rw [h2]
          exact List.mem_append_left _ hmem
        exact absurd this (by decide)
  · exact ⟨a, h2.symm⟩

theorem walker_rel_join (srcroot rel : List Char) (hn : NUL ∉ rel) :
    walker_rel srcroot (cstr srcroot ++ '/' :: rel) = rel := by
  have hn2 : NUL ∉ cstr srcroot ++ '/' :: rel := by
    intro h
    rcases List.mem_append.mp h with h | h
    · exact nul_not_mem_cstr _ h
    · rcases List.mem_cons.mp h with h | h
      · exact absurd h (by decide)
      · exact hn h
  unfold walker_rel
  rw [cstr_of_no_nul _ hn2]
  unfold strlen
  rw [List.drop_left]
  rfl

theorem walk_entry_file (stat : StatFn) (srcroot dstroot dir name : List Char)
    (he : EligibleFile dir name) :
    walk_entry stat srcroot dstroot (fileEntry srcroot dir name) =
      if ".md".toList <:+ dir ++ name then
        if needs_rebuild_from_mtime stat (cstr srcroot ++ '/' :: (dir ++ name))
            (md_to_html_ext (cstr dstroot ++ '/' :: (dir ++ name))) = false then none
        else some { t := JobType.JOB_MD, src := cstr srcroot ++ '/' :: (dir ++ name),
                    dst := md_to_html_ext (cstr dstroot ++ '/' :: (dir ++ name)) }
      else
        if needs_rebuild_from_mtime stat (cstr srcroot ++ '/' :: (dir ++ name))
            (cstr dstroot ++ '/' :: (dir ++ name)) = false then none
        else some { t := JobType.JOB_COPY, src := cstr srcroot ++ '/' :: (dir ++ name),
                    dst := cstr dstroot ++ '/' :: (dir ++ name) } := by
  obtain ⟨hne, hdot, hslash, hnn, hnd, hdir⟩ := he
  have hrel : NUL ∉ dir ++ name := by
    intro h
    rcases List.mem_append.mp h with h | h
    · exact hnd h
    · exact hnn h
  have hsrc : NUL ∉ cstr srcroot ++ '/' :: (dir ++ name) := by
    intro h
    rcases List.mem_append.mp h with h | h
    · exact nul_not_mem_cstr _ h
    · rcases List.mem_cons.mp h with h | h
      · exact absurd h (by decide)
      · exact hrel h
  have hext : has_ext name ".md".toList = true ↔ ".md".toList <:+ dir ++ name := by
    rw [has_ext_md_iff name hnn]
    constructor
    · intro h
      exact h.trans (List.suffix_append dir name)
    · exact md_suffix_of_rel dir name hdir
  unfold walk_entry fileEntry
  simp only
  rw [if_neg (by omega), cstr_of_no_nul name hnn, if_neg hdot, walker_rel_join srcroot _ hrel,
    cstr_of_no_nul _ hsrc]
  have hx : xjoin2 dstroot (dir ++ name) = cstr dstroot ++ '/' :: (dir ++ name) := by
    unfold xjoin2
    rw [cstr_of_no_nul _ hrel]
  rw [hx]
  by_cases hmd : ".md".toList <:+ dir ++ name
  · rw [if_pos (hext.mpr hmd), if_pos hmd]
  · rw [if_neg (fun h => hmd (hext.mp h)), if_neg hmd]

theorem walk_skips_dirEntry (srcroot dir d : List Char) (hn : NUL ∉ d) :
    walk_skips (dirEntry srcroot dir d) = decide (d.head? = some '.') := by
  unfold walk_skips dirEntry
  simp only
  rw [if_neg (by omega), cstr_of_no_nul d hn]
  by_cases h : d.head? = some '.'
  · rw [if_pos h]
    simp [h]
  · rw [if_neg h]
    simp [h]

theorem walk_reaches_iff (srcroot : List Char) (dirs : List (List Char)) :
    ∀ dir : List Char, (∀ d ∈ dirs, NUL ∉ d) →
      (walk_reaches srcroot dir dirs = true ↔ ∀ d ∈ dirs, d.head? ≠ some '.') := by
  induction dirs with
  | nil =>
    intro dir _
    simp [walk_reaches]
  | cons d ds ih =>
    intro dir hn
    have hd : NUL ∉ d := hn d (List.mem_cons_self _ _)
    have hds : ∀ e ∈ ds, NUL ∉ e := fun e he => hn e (List.mem_cons_of_mem _ he)
    unfold walk_reaches
    rw [walk_skips_dirEntry srcroot dir d hd]
    by_cases h : d.head? = some '.'
    · simp [h]
    · simp only [h, decide_False, Bool.false_eq_true, if_false, List.mem_cons, forall_eq_or_imp,
        ne_eq, not_false_eq_true, true_and]
      exact ih _ hds

theorem nul_not_mem_dirPath (dirs : List (List Char)) (hn : ∀ d ∈ dirs, NUL ∉ d) :
    NUL ∉ dirPath dirs := by
  induction dirs with
  | nil => simp [dirPath]
  | cons d ds ih =>
    unfold dirPath
    intro h
    rcases List.mem_append.mp h with h | h
    · exact hn d (List.mem_cons_self _ _) h
    · rcases List.mem_cons.mp h with h | h
      · exact absurd h (by decide)
      · exact ih (fun e he => hn e (List.mem_cons_of_mem _ he)) h

theorem dirPath_ends_in_slash (dirs : List (List Char)) :
    dirPath dirs = [] ∨ (dirPath dirs).getLast? = some '/' := by
  induction dirs with
  | nil => exact Or.inl rfl
  | cons d ds ih =>
    right
    unfold dirPath
    rcases ih with h | h
    · rw [h]
      simp
    · rw [List.getLast?_append_of_ne_nil]
      · cases hdp : dirPath ds with
        | nil =>
          rw [hdp] at h
          simp at h
        | cons c cs =>
          rw [hdp] at h
          rw [List.getLast?_cons_cons]
          exact h
      · simp

theorem walk_entry_dot_file (stat : StatFn) (srcroot dstroot dir name : List Char)
    (hn : NUL ∉ name) (hdot : name.head? = some '.') :
    walk_entry stat srcroot dstroot (fileEntry srcroot dir name) = none := by
  unfold walk_entry fileEntry
  simp only
  rw [if_neg (by omega), cstr_of_no_nul name hn, if_pos hdot]

/-- C16: `md_to_html_ext` turns `stem ++ ".md"` into `stem ++ ".html"` and leaves every
other path as it is; `has_ext(name, ".md")` holds exactly when `name` ends with ".md"; and
for the regular file `name` that lies below the source root in the directories `dirs`,
with relative path `rel = dirPath dirs ++ name`: when `name` or one of the directories on
the way starts with a dot, the walker makes no job for the file; otherwise, when
`rel = stem ++ ".md"` the walker makes exactly the render job from `srcroot/rel` to
`dstroot/stem.html` if the staleness test of these two paths asks for a rebuild, and no
job if it does not; and when `rel` does not end with ".md" the walker makes exactly the
copy job from `srcroot/rel` to `dstroot/rel` if the staleness test of these two paths asks
for a rebuild, and no job if it does not. -/
theorem destination_path_mapping (stat : StatFn) (srcroot dstroot : List Char)
    (dirs : List (List Char)) (name : List Char)
    (hd : ∀ d ∈ dirs, PathName d) (hn : PathName name) :
    (∀ stem : List Char, NUL ∉ stem →
      md_to_html_ext (stem ++ ".md".toList) = stem ++ ".html".toList) ∧
    (∀ p : List Char, NUL ∉ p → ¬ (".md".toList <:+ p) → md_to_html_ext p = p) ∧
    (∀ nm : List Char, NUL ∉ nm →
      (has_ext nm ".md".toList = true ↔ ".md".toList <:+ nm)) ∧
    ((name.head? = some '.' ∨ ∃ d ∈ dirs, d.head? = some '.') →
      walk_file stat srcroot dstroot dirs name = none) ∧
    ((name.head? ≠ some '.' ∧ ∀ d ∈ dirs, d.head? ≠ some '.') →
      (∀ stem : List Char, dirPath dirs ++ name = stem ++ ".md".toList →
        walk_file stat srcroot dstroot dirs name =
          if needs_rebuild_from_mtime stat (cstr srcroot ++ '/' :: (dirPath dirs ++ name))
              (cstr dstroot ++ '/' :: (stem ++ ".html".toList)) = true then
            some { t := JobType.JOB_MD, src := cstr srcroot ++ '/' :: (dirPath dirs ++ name),
                   dst := cstr dstroot ++ '/' :: (stem ++ ".html".toList) }
          else none) ∧
      (¬ (".md".toList <:+ dirPath dirs ++ name) →
        walk_file stat srcroot dstroot dirs name =
          if needs_rebuild_from_mtime stat (cstr srcroot ++ '/' :: (dirPath dirs ++ name))
              (cstr dstroot ++ '/' :: (dirPath dirs ++ name)) = true then
            some { t := JobType.JOB_COPY, src := cstr srcroot ++ '/' :: (dirPath dirs ++ name),
                   dst := cstr dstroot ++ '/' :: (dirPath dirs ++ name) }
          else none)) := by
  have hdn : ∀ d ∈ dirs, NUL ∉ d := fun d h => (hd d h).2.2
  have hpn : NUL ∉ dirPath dirs := nul_not_mem_dirPath dirs hdn
  refine ⟨md_to_html_ext_md, md_to_html_ext_other, has_ext_md_iff, ?_, ?_⟩
  · intro hdot
    unfold walk_file
    by_cases hr : walk_reaches srcroot [] dirs = true
    · rw [if_pos hr]
      rcases hdot with h | ⟨d, hdm, h⟩
      · exact walk_entry_dot_file stat srcroot dstroot _ name hn.2.2 h
      · exact absurd h ((walk_reaches_iff srcroot dirs [] hdn).mp hr d hdm)
    · rw [if_neg hr]
  · rintro ⟨hname, hdirs⟩
    have hr : walk_reaches srcroot [] dirs = true :=
      (walk_reaches_iff srcroot dirs [] hdn).mpr hdirs
    have he : EligibleFile (dirPath dirs) name :=
      ⟨hn.1, hname, hn.2.1, hn.2.2, hpn, dirPath_ends_in_slash dirs⟩
    have hw : walk_file stat srcroot dstroot dirs name
        = walk_entry stat srcroot dstroot (fileEntry srcroot (dirPath dirs) name) := by
      unfold walk_file
      rw [if_pos hr]
    rw [hw, walk_entry_file stat srcroot dstroot (dirPath dirs) name he]
    constructor
    · intro stem hstem
      have hmd : ".md".toList <:+ dirPath dirs ++ name := ⟨stem, hstem.symm⟩
      have hns : NUL ∉ cstr dstroot ++ '/' :: stem := by
        intro hm
        rcases List.mem_append.mp hm with hm | hm
        · exact nul_not_mem_cstr _ hm
        · rcases List.mem_cons.mp hm with hm | hm
          · exact absurd hm (by decide)
          · have : NUL ∈ dirPath dirs ++ name := by
              rw [hstem]
              exact List.mem_append_left _ hm
            rcases List.mem_append.mp this with h | h
            · exact hpn h
            · exact hn.2.2 h
      have e : md_to_html_ext (cstr dstroot ++ '/' :: (dirPath dirs ++ name))
          = cstr dstroot ++ '/' :: (stem ++ ".html".toList) := by
        have e1 : cstr dstroot ++ '/' :: (dirPath dirs ++ name)
            = (cstr dstroot ++ '/' :: stem) ++ ".md".toList := by
          rw [hstem]
          simp
        rw [e1, md_to_html_ext_md _ hns]
        simp
      rw [if_pos hmd, e]
      cases needs_rebuild_from_mtime stat (cstr srcroot ++ '/' :: (dirPath dirs ++ name))
        (cstr dstroot ++ '/' :: (stem ++ ".html".toList)) <;> simp
    · intro hmd
      rw [if_neg hmd]
      cases needs_rebuild_from_mtime stat (cstr srcroot ++ '/' :: (dirPath dirs ++ name))
        (cstr dstroot ++ '/' :: (dirPath dirs ++ name)) <;> simp

/-- Witness of C16: with nothing under the destination root, the walker sends the file
`notes/todo.md` below `.` to `out/notes/todo.html` as a render job and the file
`notes/logo.png` to `out/notes/logo.png` as a copy job, and makes no job for
`.git/config.md`. -/
theorem destination_path_mapping_witness :
    (∀ d ∈ ["notes".toList], PathName d) ∧ PathName "todo.md".toList ∧
    walk_file freshDest ".".toList "out".toList ["notes".toList] "todo.md".toList
      = some { t := JobType.JOB_MD, src := "./notes/todo.md".toList,
               dst := "out/notes/todo.html".toList } ∧
    walk_file freshDest ".".toList "out".toList ["notes".toList] "logo.png".toList
      = some { t := JobType.JOB_COPY, src := "./notes/logo.png".toList,
               dst := "out/notes/logo.png".toList } ∧
    walk_file freshDest ".".toList "out".toList [".git".toList] "config.md".toList = none ∧
    md_to_html_ext "out/notes/todo.md".toList = "out/notes/todo.html".toList := by
  have T := destination_path_mapping freshDest ".".toList "out".toList ["notes".toList]
    "todo.md".toList (by decide) (by decide)
  have U := destination_path_mapping freshDest ".".toList "out".toList ["notes".toList]
    "logo.png".toList (by decide) (by decide)
  have V := destination_path_mapping freshDest ".".toList "out".toList [".git".toList]
    "config.md".toList (by decide) (by decide)
  refine ⟨by decide, by decide, ?_, ?_, ?_, ?_⟩
  · exact ((T.2.2.2.2 ⟨by decide, by decide⟩).1 "notes/todo".toList (by decide)).trans
      (by decide)
  · exact ((U.2.2.2.2 ⟨by decide, by decide⟩).2 (by decide)).trans (by decide)
  · exact V.2.2.2.1 (Or.inr ⟨".git".toList, by decide, by decide⟩)
  · exact T.1 "out/notes/todo".toList (by decide)

/-- C18: for every source that `stat` finds, `needs_rebuild_from_mtime` is true exactly
when the destination does not exist, or is not a regular file, or has a modification time
strictly smaller than the source's; so a regular destination with the source's
modification time is not rebuilt, and that is the state a successful
`preserve_mode_mtime` with the source's `stat` record leaves. -/
theorem needs_rebuild_iff_missing_or_older (stat : StatFn) (src dst : List Char) (s : Stat)
    (hs : stat src = some s) :
    (needs_rebuild_from_mtime stat src dst = true ↔
      (stat dst = none ∨
        ∃ d, stat dst = some d ∧ (d.is_reg = false ∨ d.mtime < s.mtime))) ∧
    (∀ d, stat dst = some d → d.is_reg = true → d.mtime = s.mtime →
      needs_rebuild_from_mtime stat src dst = false) ∧
    (∀ (chmod_ok utime_ok : Bool) (stat1 : StatFn) (d : Stat), src ≠ dst →
      stat dst = some d → d.is_reg = true →
      preserve_mode_mtime stat chmod_ok utime_ok dst s = (0, stat1) →
      needs_rebuild_from_mtime stat1 src dst = false) := by
  refine ⟨?_, ?_, ?_⟩
  · unfold needs_rebuild_from_mtime
    rw [hs]
    cases hd : stat dst with
    | none => simp
    | some d =>
      simp only [false_or, Option.some.injEq, exists_eq_left']
      by_cases hr : d.is_reg = false
      · simp [hr]
      · simp [hr]
  · intro d hd hr hm
    unfold needs_rebuild_from_mtime
    rw [hs, hd]
    simp [hr, hm]
  · intro chmod_ok utime_ok stat1 d hne hd hr hp
    unfold preserve_mode_mtime copy_times at hp
    rw [hd] at hp
    simp only at hp
    cases chmod_ok with
    | false => simp at hp
    | true =>
      cases utime_ok with
      | false => simp at hp
      | true =>
        simp only [Bool.true_eq_false, ↓reduceIte, Int.reduceNeg, Prod.mk.injEq,
          true_and] at hp
        simp only [zero_eq_neg, one_ne_zero, ↓reduceIte, Prod.mk.injEq, true_and] at hp
        subst hp
        unfold needs_rebuild_from_mtime
        simp only [hne, ↓reduceIte, hs, hr]
        simp

/-- Witness of C18: a destination older than its source needs a rebuild, and no longer
after `preserve_mode_mtime` has copied the source's times onto it. -/
theorem needs_rebuild_iff_missing_or_older_witness :
    staleDest "./a.md".toList
      = some { is_reg := true, mode := 420, atime := 100, mtime := 100 } ∧
    needs_rebuild_from_mtime staleDest "./a.md".toList "out/a.html".toList = true ∧
    needs_rebuild_from_mtime
      (preserve_mode_mtime staleDest true true "out/a.html".toList
        { is_reg := true, mode := 420, atime := 100, mtime := 100 }).2
      "./a.md".toList "out/a.html".toList = false :=
  ⟨by decide,
    (needs_rebuild_iff_missing_or_older staleDest "./a.md".toList "out/a.html".toList
      { is_reg := true, mode := 420, atime := 100, mtime := 100 } (by decide)).1.mpr
      (Or.inr ⟨{ is_reg := true, mode := 384, atime := 60, mtime := 50 }, by decide,
        Or.inr (by decide)⟩),
    (needs_rebuild_iff_missing_or_older staleDest "./a.md".toList "out/a.html".toList
      { is_reg := true, mode := 420, atime := 100, mtime := 100 } (by decide)).2.2
      true true _ { is_reg := true, mode := 384, atime := 60, mtime := 50 }
      (by decide) (by decide) rfl (Prod.ext (by decide) rfl)⟩

/-! ## Job queue -/

theorem chain_congr (next next1 : Nat → Option Nat) (p : Option Nat) (l : List Nat)
    (h : ∀ a ∈ l, next1 a = next a) (hc : Chain next p l) : Chain next1 p l := by
  induction l generalizing p with
  | nil => exact hc
  | cons a l ih =>
    obtain ⟨h1, h2⟩ := hc
    refine ⟨h1, ?_⟩
    rw [h a (by simp)]
    exact ih _ (fun x hx => h x (by simp [hx])) h2

theorem chain_snoc (next : Nat → Option Nat) (p : Option Nat) (l : List Nat) (t j : Nat)
    (hc : Chain next p l) (hnd : l.Nodup) (hj : j ∉ l) (ht : l.getLast? = some t) :
    Chain (fun x => if x = t then some j else if x = j then none else next x) p (l ++ [j]) := by
  induction l generalizing p with
  | nil => simp at ht
  | cons a l ih =>
    obtain ⟨h1, h2⟩ := hc
    have haj : a ≠ j := fun e => hj (by simp [e])
    have hjl : j ∉ l := fun e => hj (by simp [e])
    have hjt : j ≠ t := by
      intro e
      apply hj
      rw [e]
      exact List.mem_of_getLast?_eq_some ht
    refine ⟨h1, ?_⟩
    cases l with
    | nil =>
      simp only [List.getLast?_singleton, Option.some.injEq] at ht
      subst ht
      simp only [↓reduceIte, List.nil_append]
      exact ⟨rfl, by simp [hjt, Chain]⟩
    | cons b l2 =>
      have ht2 : (b :: l2).getLast? = some t := by
        rw [List.getLast?_cons_cons] at ht
        exact ht
      have hat : a ≠ t := by
        intro e
        have : a ∈ b :: l2 := by
          rw [e]
          exact List.mem_of_getLast?_eq_some ht2
        exact (List.nodup_cons.mp hnd).1 this
      simp only [hat, haj, ↓reduceIte]
      exact ih _ h2 (List.nodup_cons.mp hnd).2 hjl ht2

theorem queue_init (heap : Nat → Option Nat) :
    QueueHolds (jq_init heap) [] ∧ (jq_init heap).closed = false :=
  ⟨⟨rfl, rfl, List.nodup_nil⟩, rfl⟩

theorem queue_push (q : JobQ) (l : List Nat) (j : Nat) (hq : QueueHolds q l) (hj : j ∉ l) :
    QueueHolds (jq_push q j) (l ++ [j]) ∧ (jq_push q j).closed = q.closed := by
  obtain ⟨hc, ht, hnd⟩ := hq
  have hnd2 : (l ++ [j]).Nodup := by
    rw [List.nodup_append]
    exact ⟨hnd, List.nodup_singleton j, by
      intro a ha hb
      simp only [List.mem_singleton] at hb
      exact hj (hb ▸ ha)⟩
  unfold jq_push
  cases l with
  | nil =>
    have ht0 : q.tail = none := ht
    rw [ht0]
    refine ⟨⟨?_, ?_, hnd2⟩, ?_⟩
    · exact ⟨rfl, by simp [Chain]⟩
    · rfl
    · rfl
  | cons a l2 =>
    obtain ⟨t, htl⟩ : ∃ t, (a :: l2).getLast? = some t :=
      ⟨(a :: l2).getLast (by simp), List.getLast?_eq_getLast _ _⟩
    have ht1 : q.tail = some t := by rw [ht, htl]
    rw [ht1]
    refine ⟨⟨chain_snoc q.next q.head (a :: l2) t j hc hnd hj htl, ?_, hnd2⟩, ?_⟩
    · show some j = (a :: l2 ++ [j]).getLast?
      rw [List.getLast?_append]
      rfl
    · rfl

theorem queue_pop_cons (q : JobQ) (a : Nat) (l : List Nat) (hq : QueueHolds q (a :: l)) :
    ∃ q1, jq_pop q = some (some a, q1) ∧ QueueHolds q1 l ∧ q1.closed = q.closed := by
  obtain ⟨⟨hh, hc⟩, ht, hnd⟩ := hq
  unfold jq_pop
  simp only [hh, reduceCtorEq, false_and, ↓reduceIte]
  refine ⟨_, rfl, ⟨hc, ?_, (List.nodup_cons.mp hnd).2⟩, rfl⟩
  cases l with
  | nil =>
    have : q.next a = none := hc
    simp [this]
  | cons b l2 =>
    have : q.next a = some b := hc.1
    simp only [this, reduceCtorEq, ↓reduceIte, ht]
    rw [List.getLast?_cons_cons]

theorem queue_pop_empty (q : JobQ) (hq : QueueHolds q []) :
    (q.closed = true → jq_pop q = some (none, q)) ∧ (q.closed = false → jq_pop q = none) := by
  have hh : q.head = none := hq.1
  unfold jq_pop
  constructor
  · intro hc
    simp [hh, hc]
  · intro hc
    simp [hh, hc]

theorem queue_push_all (q : JobQ) (l js : List Nat) (hq : QueueHolds q l)
    (hnd : (l ++ js).Nodup) :
    QueueHolds (js.foldl jq_push q) (l ++ js) ∧ (js.foldl jq_push q).closed = q.closed := by
  induction js generalizing q l with
  | nil => simpa using hq
  | cons j js ih =>
    have hj : j ∉ l := by
      intro h
      have := (List.nodup_append.mp hnd).2.2
      exact this h (by simp)
    obtain ⟨h1, h2⟩ := queue_push q l j hq hj
    have hnd2 : (l ++ [j] ++ js).Nodup := by simpa using hnd
    obtain ⟨h3, h4⟩ := ih (jq_push q j) (l ++ [j]) h1 hnd2
    simp only [List.foldl_cons]
    refine ⟨by simpa using h3, by rw [h4, h2]⟩

theorem queue_drain (q : JobQ) (l : List Nat) (hq : QueueHolds q l) (hc : q.closed = true) :
    jq_drain (l.length + 1) q = some l := by
  induction l generalizing q with
  | nil =>
    unfold jq_drain
    rw [(queue_pop_empty q hq).1 hc]
  | cons a l ih =>
    obtain ⟨q1, h1, h2, h3⟩ := queue_pop_cons q a l hq
    rw [List.length_cons, jq_drain, h1]
    simp only
    rw [ih q1 h2 (by rw [h3, hc])]
    rfl

/-- C19: with the queue seen as the list of the jobs linked from `head` to `tail` and the
closed flag: `jq_init` gives the empty, open queue; `jq_push` of a job not in the queue
puts it at the back; `jq_pop` on a non-empty queue returns the front job and leaves the
rest, whether or not the queue is closed; `jq_pop` on an empty closed queue returns no
job (and on an empty open queue it waits); hence after any pushes of distinct jobs and
`jq_close`, the pops up to the first `NULL` return exactly the pushed jobs in push order. -/
theorem job_queue_fifo (heap : Nat → Option Nat) :
    (QueueHolds (jq_init heap) [] ∧ (jq_init heap).closed = false) ∧
    (∀ (q : JobQ) (l : List Nat) (j : Nat), QueueHolds q l → j ∉ l →
      QueueHolds (jq_push q j) (l ++ [j]) ∧ (jq_push q j).closed = q.closed) ∧
    (∀ (q : JobQ) (a : Nat) (l : List Nat), QueueHolds q (a :: l) →
      ∃ q1, jq_pop q = some (some a, q1) ∧ QueueHolds q1 l ∧ q1.closed = q.closed) ∧
    (∀ q : JobQ, QueueHolds q [] →
      (q.closed = true → jq_pop q = some (none, q)) ∧ (q.closed = false → jq_pop q = none)) ∧
    (∀ js : List Nat, js.Nodup →
      QueueHolds (jq_close (js.foldl jq_push (jq_init heap))) js ∧
      jq_drain (js.length + 1) (jq_close (js.foldl jq_push (jq_init heap))) = some js) := by
  refine ⟨queue_init heap, queue_push, queue_pop_cons, queue_pop_empty, ?_⟩
  intro js hnd
  obtain ⟨h1, _⟩ := queue_push_all (jq_init heap) [] js (queue_init heap).1 (by simpa using hnd)
  have h2 : QueueHolds (jq_close (js.foldl jq_push (jq_init heap))) js := by
    simpa [jq_close, QueueHolds] using h1
  exact ⟨h2, queue_drain _ js h2 rfl⟩

/-- Witness of C19: three jobs pushed, the queue closed, and drained. -/
theorem job_queue_fifo_witness :
    [5, 3, 9].Nodup ∧
    jq_drain 4 (jq_close ([5, 3, 9].foldl jq_push (jq_init (fun _ => some 77))))
      = some [5, 3, 9] :=
  ⟨by decide, ((job_queue_fifo (fun _ => some 77)).2.2.2.2 [5, 3, 9] (by decide)).2⟩

/-! ## Request paths -/

theorem strstr_none_absent (h n : List Char) (hs : strstr h n = none) : ¬ (n <:+: h) := by
  induction h with
  | nil =>
    unfold strstr at hs
    split at hs
    · simp at hs
    · rename_i he
      intro hi
      have : n = [] := by simpa using hi
      exact he (by simp [this])
  | cons x xs ih =>
    by_cases hp : n <+: x :: xs
    · rw [strstr_cons_hit x xs n hp] at hs
      simp at hs
    · rw [strstr_cons_miss x xs n hp] at hs
      have h2 : strstr xs n = none := by
        cases hx : strstr xs n with
        | none => rfl
        | some j =>
          rw [hx] at hs
          exact absurd hs (by simp)
      rw [List.infix_cons_iff]
      rintro (h | h)
      · exact hp h
      · exact ih h2 h

theorem strstr_isSome_iff (h n : List Char) : (strstr h n).isSome = true ↔ n <:+: h := by
  constructor
  · intro hs
    obtain ⟨k, hk⟩ := Option.isSome_iff_exists.mp hs
    exact strstr_some_occurs h n k hk
  · intro hi
    cases hs : strstr h n with
    | none => exact absurd hi (strstr_none_absent h n hs)
    | some k => rfl

/-- C20: for every served root and request path (NUL-free), `req_to_md_path` returns
nothing exactly when the path is empty or contains ".."; for "/" it returns the root
followed by "/index.md"; and for every other accepted path it returns the root, "/", the
path without one leading "/", and ".md". -/
theorem req_to_md_path_mapping (root uri : List Char) (hr : NUL ∉ root) (hu : NUL ∉ uri) :
    (req_to_md_path root uri = none ↔ (uri = [] ∨ "..".toList <:+: uri)) ∧
    req_to_md_path root "/".toList = some (root ++ "/index.md".toList) ∧
    (uri ≠ [] → uri ≠ "/".toList → ¬ ("..".toList <:+: uri) →
      req_to_md_path root uri
        = some (root ++ "/".toList ++ dropLeadingSlash uri ++ ".md".toList)) := by
  have hroot := cstr_of_no_nul root hr
  have huri := cstr_of_no_nul uri hu
  have hslash : req_to_md_path root "/".toList = some (root ++ "/index.md".toList) := by
    have hc : cstr "/".toList = "/".toList := by decide
    have hs : ¬ ((strstr "/index".toList "..".toList).isSome = true) := by decide
    have hd : dropLeadingSlash "/index".toList = "index".toList := by decide
    have h0 : ¬ ("/".toList = ([] : List Char)) := by decide
    unfold req_to_md_path
    simp only [hc, hroot]
    rw [if_neg h0, if_pos trivial, if_neg hs, hd]
    rfl
  have hother : uri ≠ [] → uri ≠ "/".toList → ¬ ("..".toList <:+: uri) →
      req_to_md_path root uri
        = some (root ++ "/".toList ++ dropLeadingSlash uri ++ ".md".toList) := by
    intro h0 h1 h2
    unfold req_to_md_path
    simp only [huri, hroot]
    rw [if_neg h0, if_neg h1, if_neg (by rw [strstr_isSome_iff]; exact h2)]
    simp
  refine ⟨?_, hslash, hother⟩
  constructor
  · intro hnone
    by_cases h0 : uri = []
    · exact Or.inl h0
    · by_cases h1 : uri = "/".toList
      · rw [h1, hslash] at hnone
        simp at hnone
      · by_cases h2 : "..".toList <:+: uri
        · exact Or.inr h2
        · rw [hother h0 h1 h2] at hnone
          simp at hnone
  · rintro (h0 | h2)
    · unfold req_to_md_path
      simp only [huri]
      rw [if_pos h0]
    · have h0 : uri ≠ [] := by
        intro e
        rw [e] at h2
        exact absurd h2 (by decide)
      have h1 : uri ≠ "/".toList := by
        intro e
        rw [e] at h2
        exact absurd h2 (by decide)
      unfold req_to_md_path
      simp only [huri]
      rw [if_neg h0, if_neg h1, if_pos (by rw [strstr_isSome_iff]; exact h2)]

/-- Witness of C20: the request path "/docs/setup" under the root "site". -/
theorem req_to_md_path_mapping_witness :
    NUL ∉ "site".toList ∧ NUL ∉ "/docs/setup".toList ∧
    req_to_md_path "site".toList "/docs/setup".toList = some "site/docs/setup.md".toList ∧
    req_to_md_path "site".toList "/docs/../etc".toList = none :=
  ⟨by decide, by decide,
    ((req_to_md_path_mapping "site".toList "/docs/setup".toList (by decide) (by decide)).2.2
      (by decide) (by decide) (by decide)).trans (by decide),
    (req_to_md_path_mapping "site".toList "/docs/../etc".toList (by decide) (by decide)).1.mpr
      (Or.inr (by decide))⟩

/-! ## Request routing -/

theorem strrchr_none (s : List Char) (c : Char) (h : c ∉ s) : strrchr s c = none := by
  induction s with
  | nil => rfl
  | cons x xs ih =>
    have hx : ¬ x = c := fun e => h (by simp [e])
    have hxs : c ∉ xs := fun e => h (by simp [e])
    rw [strrchr, ih hxs]
    simp [hx]

theorem strrchr_append (a b : List Char) (c : Char) (h : c ∉ b) :
    strrchr (a ++ c :: b) c = some a.length := by
  induction a with
  | nil =>
    rw [List.nil_append, strrchr, strrchr_none b c h]
    simp
  | cons x xs ih =>
    rw [List.cons_append, strrchr, ih]
    rfl

theorem memchr_isSome_iff (s : List Char) (c : Char) :
    (memchr s c).isSome = true ↔ c ∈ s := by
  cases hm : memchr s c with
  | none =>
    have := (memchr_none s c).mp hm
    simp [this]
  | some k =>
    have : c ∈ s := by
      by_contra hc
      rw [(memchr_none s c).mpr hc] at hm
      exact absurd hm (by simp)
    simp [this]

theorem path_has_extension_iff (dir base : List Char) (hd : NUL ∉ dir) (hb : NUL ∉ base)
    (hslash : '/' ∉ base) (hdir : dir = [] ∨ dir.getLast? = some '/') :
    path_has_extension (dir ++ base) = true ↔ '.' ∈ base := by
  have hn : NUL ∉ dir ++ base := by
    intro h
    rcases List.mem_append.mp h with h | h
    · exact hd h
    · exact hb h
  unfold path_has_extension
  rw [cstr_of_no_nul _ hn]
  rcases hdir with h0 | hl
  · subst h0
    simp only [List.nil_append]
    rw [strrchr_none base '/' hslash]
    exact memchr_isSome_iff base '.'
  · obtain ⟨d, hd2⟩ := List.getLast?_eq_some_iff.mp hl
    have e : dir ++ base = d ++ '/' :: base := by
      rw [hd2]
      simp
    rw [e]
    simp only [strrchr_append d base '/' hslash]
    have e2 : (d ++ '/' :: base).drop (d.length + 1) = base := by
      have : d ++ '/' :: base = (d ++ ['/']) ++ base := by simp
      rw [this, List.drop_left' (by simp)]
    rw [e2]
    exact memchr_isSome_iff base '.'

/-- Counterexample to C21 as stated: the request paths "/../notes.txt" and "/.." contain
"..", yet `http_fn` hands them to the static-file path, because the last component of the
path holds a dot and the test for an extension comes before `serve_markdown`. -/
theorem dotdot_request_served_static_counterexample :
    "..".toList <:+: "/../notes.txt".toList ∧
    http_fn true freshDest ".".toList "/../notes.txt".toList = Route.static_file ∧
    "..".toList <:+: "/..".toList ∧
    http_fn true freshDest ".".toList "/..".toList = Route.static_file := by
  decide

/-- C21 (amended): for every request path that contains ".." (NUL-free, written as `dir`
followed by its last component `base`), `http_fn` replies with status 400, and neither
renders a document nor calls the static-file path, when `base` holds no dot; when `base`
holds a dot, as it does whenever the path ends in "..", the request is handed to the
static-file path and `serve_markdown` is not reached.  In neither case is a document
rendered. -/
theorem dotdot_request_routing (stat : StatFn) (root dir base : List Char)
    (hd : NUL ∉ dir) (hb : NUL ∉ base) (hslash : '/' ∉ base)
    (hdir : dir = [] ∨ dir.getLast? = some '/')
    (hdots : "..".toList <:+: dir ++ base) :
    ('.' ∉ base → http_fn true stat root (dir ++ base) = Route.reply 400) ∧
    ('.' ∈ base → http_fn true stat root (dir ++ base) = Route.static_file) ∧
    (∀ mdp, http_fn true stat root (dir ++ base) ≠ Route.render mdp) := by
  have hn : NUL ∉ dir ++ base := by
    intro h
    rcases List.mem_append.mp h with h | h
    · exact hd h
    · exact hb h
  have hext := path_has_extension_iff dir base hd hb hslash hdir
  have hreq : req_to_md_path root (dir ++ base) = none := by
    unfold req_to_md_path
    simp only [cstr_of_no_nul _ hn]
    have h0 : ¬ (dir ++ base = []) := by
      intro e
      rw [e] at hdots
      exact absurd hdots (by decide)
    have h1 : ¬ (dir ++ base = "/".toList) := by
      intro e
      rw [e] at hdots
      exact absurd hdots (by decide)
    rw [if_neg h0, if_neg h1, if_pos ((strstr_isSome_iff _ _).mpr hdots)]
  have h400 : '.' ∉ base → http_fn true stat root (dir ++ base) = Route.reply 400 := by
    intro hno
    unfold http_fn serve_markdown_route
    rw [if_neg (by decide), if_neg (fun h => hno (hext.mp h)), hreq]
  have hstat : '.' ∈ base → http_fn true stat root (dir ++ base) = Route.static_file := by
    intro hyes
    unfold http_fn
    rw [if_neg (by decide), if_pos (hext.mpr hyes)]
  refine ⟨h400, hstat, ?_⟩
  intro mdp
  by_cases hdot : '.' ∈ base
  · rw [hstat hdot]
    exact fun h => Route.noConfusion h
  · rw [h400 hdot]
    exact fun h => Route.noConfusion h

/-- Witness of C21 (amended): the request path "/../etc/passwd" is answered with 400. -/
theorem dotdot_request_routing_witness :
    "..".toList <:+: "/../etc/".toList ++ "passwd".toList ∧
    http_fn true freshDest ".".toList ("/../etc/".toList ++ "passwd".toList)
      = Route.reply 400 :=
  ⟨by decide,
    (dotdot_request_routing freshDest ".".toList "/../etc/".toList "passwd".toList
      (by decide) (by decide) (by decide) (by decide) (by decide)).1 (by decide)⟩

/-! ## Wrapping in serve mode and in build mode -/

theorem buf_putn_ok_step (b : Buf) (s : List Char) (f : Nat → Char) (rc : Int) (b1 : Buf)
    (hb : BufOK b) (h : buf_putn b s (some f) = some (rc, b1)) :
    Buf.contents b1 = Buf.contents b ++ s ∧ b1.len = b.len + s.length ∧ BufOK b1 := by
  rcases buf_putn_spec b s (some f) rc b1 hb h with ⟨_, _, h3⟩ | ⟨_, h2, h3, _, _, h6⟩
  · exact absurd h3 (by simp)
  · exact ⟨h2, h3, h6⟩

theorem nul_not_mem_take_cstr (l : List Char) (k : Nat) : NUL ∉ (cstr l).take k :=
  fun h => nul_not_mem_cstr l (List.mem_of_mem_take h)

theorem nul_not_mem_drop_cstr (l : List Char) (k : Nat) : NUL ∉ (cstr l).drop k :=
  fun h => nul_not_mem_cstr l (List.mem_of_mem_drop h)

theorem cstr_cstr (l : List Char) : cstr (cstr l) = cstr l :=
  cstr_of_no_nul _ (nul_not_mem_cstr l)

theorem nul_not_mem_wrapBytes (html : List Char) (layout : Option (List Char)) :
    NUL ∉ wrapBytes html layout := by
  unfold wrapBytes
  cases layout with
  | none => exact nul_not_mem_cstr html
  | some lay =>
    simp only
    cases strstr (cstr lay) BODY_PH with
    | none =>
      simp only [List.mem_append, not_or]
      exact ⟨nul_not_mem_cstr lay, nul_not_mem_cstr html⟩
    | some ip =>
      simp only [List.mem_append, not_or]
      exact ⟨⟨nul_not_mem_take_cstr lay ip, nul_not_mem_cstr html⟩,
        nul_not_mem_drop_cstr lay _⟩

theorem serve_body_contents (f1 f2 f3 : Nat → Char) (html : List Char)
    (layout : Option (List Char)) (b : Buf)
    (h : serve_markdown_body (some f1) (some f2) (some f3) html layout = some b) :
    Buf.contents b = wrapBytes html layout ∧ b.len = (wrapBytes html layout).length ∧
      BufOK b := by
  have he : BufOK Buf.empty := by decide
  have hc0 : Buf.contents Buf.empty = [] := rfl
  have hl0 : Buf.empty.len = 0 := rfl
  unfold serve_markdown_body at h
  unfold wrapBytes
  cases layout with
  | none =>
    simp only at h ⊢
    cases h1 : buf_puts Buf.empty html (some f1) with
    | none => simp [h1] at h
    | some r1 =>
      obtain ⟨rc1, b1⟩ := r1
      simp only [h1, Option.some.injEq] at h
      subst h
      obtain ⟨c1, l1, k1⟩ := buf_putn_ok_step _ _ _ _ _ he h1
      rw [c1, l1, hc0, hl0]
      simp [k1]
  | some lay =>
    simp only at h ⊢
    cases hs : strstr (cstr lay) BODY_PH with
    | none =>
      simp only [hs] at h ⊢
      cases h1 : buf_puts Buf.empty lay (some f1) with
      | none => simp [h1] at h
      | some r1 =>
        obtain ⟨rc1, b1⟩ := r1
        simp only [h1] at h
        obtain ⟨c1, l1, k1⟩ := buf_putn_ok_step _ _ _ _ _ he h1
        cases h2 : buf_puts b1 html (some f2) with
        | none => simp [h2] at h
        | some r2 =>
          obtain ⟨rc2, b2⟩ := r2
          simp only [h2, Option.some.injEq] at h
          subst h
          obtain ⟨c2, l2, k2⟩ := buf_putn_ok_step _ _ _ _ _ k1 h2
          rw [c2, l2, c1, l1, hc0, hl0]
          simp [k2]
    | some ip =>
      simp only [hs] at h ⊢
      cases h1 : buf_putn Buf.empty ((cstr lay).take ip) (some f1) with
      | none => simp [h1] at h
      | some r1 =>
        obtain ⟨rc1, b1⟩ := r1
        simp only [h1] at h
        obtain ⟨c1, l1, k1⟩ := buf_putn_ok_step _ _ _ _ _ he h1
        cases h2 : buf_puts b1 html (some f2) with
        | none => simp [h2] at h
        | some r2 =>
          obtain ⟨rc2, b2⟩ := r2
          simp only [h2] at h
          obtain ⟨c2, l2, k2⟩ := buf_putn_ok_step _ _ _ _ _ k1 h2
          cases h3 : buf_puts b2 ((cstr lay).drop (ip + BODY_PH.length)) (some f3) with
          | none => simp [h3] at h
          | some r3 =>
            obtain ⟨rc3, b3⟩ := r3
            simp only [h3, Option.some.injEq] at h
            subst h
            obtain ⟨c3, l3, k3⟩ := buf_putn_ok_step _ _ _ _ _ k2 h3
            have hd : cstr ((cstr lay).drop (ip + BODY_PH.length))
                = (cstr lay).drop (ip + BODY_PH.length) :=
              cstr_of_no_nul _ (nul_not_mem_drop_cstr lay _)
            rw [c3, l3, c2, l2, c1, l1, hc0, hl0, hd]
            refine ⟨by simp, by simp only [List.length_append]; omega, k3⟩

theorem write_output_wrapped_wrapBytes (open_ok : Bool) (ws : List WriteRes)
    (html : List Char) (layout : Option (List Char)) (bytes : List Char)
    (h : write_output_wrapped open_ok ws html layout = some (0, bytes)) :
    bytes = wrapBytes html layout := by
  unfold write_output_wrapped at h
  unfold wrapBytes
  cases open_ok with
  | false => simp at h
  | true =>
    simp only [Bool.true_eq_false, ↓reduceIte] at h
    cases layout with
    | none => simpa using write_seq_ok _ _ _ _ h
    | some lay =>
      simp only at h ⊢
      cases hs : strstr (cstr lay) BODY_PH with
      | none =>
        rw [hs] at h
        simpa using write_seq_ok _ _ _ _ h
      | some ip =>
        rw [hs] at h
        simpa using write_seq_ok _ _ _ _ h

theorem serve_reply_body_eq (b : Buf) (c : List Char) (hc : Buf.contents b = c)
    (hl : b.len = c.length) (hn : NUL ∉ c) (h32 : c.length < 2 ^ 32) :
    serve_reply_body b = c := by
  unfold serve_reply_body fmt_precision_s to_int
  rw [hc, hl, cstr_of_no_nul c hn, Nat.mod_eq_of_lt h32]
  by_cases h31 : c.length < 2 ^ 31
  · rw [if_pos h31, if_neg (by omega)]
    simp
  · rw [if_neg h31, if_pos (by omega)]

theorem buf_putn_step_exists (b : Buf) (s : List Char) (f : Nat → Char) (hb : BufOK b)
    (hsz : b.len + s.length + 1 ≤ 2 ^ 63) :
    ∃ rc b1, buf_putn b s (some f) = some (rc, b1) ∧ b1.len = b.len + s.length ∧ BufOK b1 := by
  obtain ⟨rc, b1, h, _⟩ := buf_putn_returns b s (some f) hb hsz
  obtain ⟨_, h2, h3⟩ := buf_putn_ok_step b s f rc b1 hb h
  exact ⟨rc, b1, h, h2, h3⟩

theorem serve_markdown_body_returns (f1 f2 f3 : Nat → Char) (html : List Char)
    (layout : Option (List Char)) (hsz : (wrapBytes html layout).length + 1 ≤ 2 ^ 63) :
    ∃ b, serve_markdown_body (some f1) (some f2) (some f3) html layout = some b := by
  have he : BufOK Buf.empty := by decide
  have hl0 : Buf.empty.len = 0 := rfl
  unfold wrapBytes at hsz
  unfold serve_markdown_body
  cases layout with
  | none =>
    simp only at hsz ⊢
    obtain ⟨rc1, b1, h1, _, _⟩ := buf_putn_step_exists Buf.empty (cstr html) f1 he
      (by rw [hl0]; omega)
    have h1' : buf_puts Buf.empty html (some f1) = some (rc1, b1) := h1
    rw [h1']
    exact ⟨b1, rfl⟩
  | some lay =>
    simp only at hsz ⊢
    cases hs : strstr (cstr lay) BODY_PH with
    | none =>
      simp only [hs, List.length_append] at hsz ⊢
      obtain ⟨rc1, b1, h1, l1, k1⟩ := buf_putn_step_exists Buf.empty (cstr lay) f1 he
        (by rw [hl0]; omega)
      have h1' : buf_puts Buf.empty lay (some f1) = some (rc1, b1) := h1
      obtain ⟨rc2, b2, h2, _, _⟩ := buf_putn_step_exists b1 (cstr html) f2 k1
        (by rw [l1, hl0]; omega)
      have h2' : buf_puts b1 html (some f2) = some (rc2, b2) := h2
      rw [h1']
      simp only
      rw [h2']
      exact ⟨b2, rfl⟩
    | some ip =>
      simp only [hs, List.length_append] at hsz ⊢
      have hd : cstr ((cstr lay).drop (ip + BODY_PH.length))
          = (cstr lay).drop (ip + BODY_PH.length) :=
        cstr_of_no_nul _ (nul_not_mem_drop_cstr lay _)
      obtain ⟨rc1, b1, h1, l1, k1⟩ := buf_putn_step_exists Buf.empty ((cstr lay).take ip) f1 he
        (by rw [hl0]; omega)
      obtain ⟨rc2, b2, h2, l2, k2⟩ := buf_putn_step_exists b1 (cstr html) f2 k1
        (by rw [l1, hl0]; omega)
      have h2' : buf_puts b1 html (some f2) = some (rc2, b2) := h2
      obtain ⟨rc3, b3, h3, _, _⟩ := buf_putn_step_exists b2
        ((cstr lay).drop (ip + BODY_PH.length)) f3 k2 (by rw [l2, l1, hl0]; omega)
      have h3' : buf_puts b2 ((cstr lay).drop (ip + BODY_PH.length)) (some f3)
          = some (rc3, b3) := by
        unfold buf_puts
        rw [hd]
        exact h3
      rw [h1]
      simp only
      rw [h2']
      simp only
      rw [h3']
      exact ⟨b3, rfl⟩

/-- C22: for every body text `html` (possibly empty) and every optional layout, when the
appends in `serve_markdown` succeed the response body assembled there is, byte for byte,
what `write_output_wrapped` has written when it returns 0 for the same `html` and layout,
in all three cases (no layout, layout with the placeholder, layout without it); below
4 GiB these are also the bytes `mg_http_reply` sends; and the assembly does return. -/
theorem serve_body_equals_build_output (f1 f2 f3 : Nat → Char) (open_ok : Bool)
    (ws : List WriteRes) (html : List Char) (layout : Option (List Char)) :
    (∀ (bytes : List Char) (b : Buf),
      write_output_wrapped open_ok ws html layout = some (0, bytes) →
      serve_markdown_body (some f1) (some f2) (some f3) html layout = some b →
      Buf.contents b = bytes ∧ (bytes.length < 2 ^ 32 → serve_reply_body b = bytes)) ∧
    (∀ b : Buf, serve_markdown_body (some f1) (some f2) (some f3) html layout = some b →
      Buf.contents b = wrapBytes html layout) ∧
    (∀ bytes : List Char, write_output_wrapped open_ok ws html layout = some (0, bytes) →
      bytes = wrapBytes html layout) ∧
    ((wrapBytes html layout).length + 1 ≤ 2 ^ 63 →
      ∃ b, serve_markdown_body (some f1) (some f2) (some f3) html layout = some b) := by
  refine ⟨?_, ?_, ?_, serve_markdown_body_returns f1 f2 f3 html layout⟩
  · intro bytes b hw hs
    have e := write_output_wrapped_wrapBytes open_ok ws html layout bytes hw
    obtain ⟨c, l, _⟩ := serve_body_contents f1 f2 f3 html layout b hs
    rw [e]
    exact ⟨c, fun h32 => serve_reply_body_eq b _ c l (nul_not_mem_wrapBytes html layout) h32⟩
  · intro b hs
    exact (serve_body_contents f1 f2 f3 html layout b hs).1
  · intro bytes hw
    exact write_output_wrapped_wrapBytes open_ok ws html layout bytes hw

/-- Witness of C22: a layout with two placeholders and the body `<p>hi</p>`. -/
theorem serve_body_equals_build_output_witness :
    write_output_wrapped true [WriteRes.wrote 99, WriteRes.wrote 99, WriteRes.wrote 99]
        "<p>hi</p>".toList (some "<html>\x7b\x7bBody\x7d\x7d</html>\x7b\x7bBody\x7d\x7d".toList)
      = some (0, "<html><p>hi</p></html>\x7b\x7bBody\x7d\x7d".toList) ∧
    ∃ b, serve_markdown_body (some (fun _ => 'x')) (some (fun _ => 'y')) (some (fun _ => 'z'))
          "<p>hi</p>".toList (some "<html>\x7b\x7bBody\x7d\x7d</html>\x7b\x7bBody\x7d\x7d".toList)
        = some b ∧
      Buf.contents b = "<html><p>hi</p></html>\x7b\x7bBody\x7d\x7d".toList ∧
      serve_reply_body b = "<html><p>hi</p></html>\x7b\x7bBody\x7d\x7d".toList := by
  have T := serve_body_equals_build_output (fun _ => 'x') (fun _ => 'y') (fun _ => 'z') true
    [WriteRes.wrote 99, WriteRes.wrote 99, WriteRes.wrote 99] "<p>hi</p>".toList
    (some "<html>\x7b\x7bBody\x7d\x7d</html>\x7b\x7bBody\x7d\x7d".toList)
  have hw : write_output_wrapped true [WriteRes.wrote 99, WriteRes.wrote 99, WriteRes.wrote 99]
        "<p>hi</p>".toList (some "<html>\x7b\x7bBody\x7d\x7d</html>\x7b\x7bBody\x7d\x7d".toList)
      = some (0, "<html><p>hi</p></html>\x7b\x7bBody\x7d\x7d".toList) := by decide
  obtain ⟨b, hb⟩ := T.2.2.2 (by decide)
  obtain ⟨h1, h2⟩ := T.1 _ b hw hb
  exact ⟨hw, b, hb, h1, h2 (by decide)⟩

end Huap
